import Mathlib

/-!
Shallow embedding of the concurrent link-audit engine of the
markdown-analyzer services (`src/http_auditor_service.py` and
`src/link_auditor_service.py`), together with theorems settling the
frozen claims C1..C10 about the natural-language specification.

The network is modelled by a pure oracle `probe : String → ProbeResult`
giving, for each URL, the observable result of the single outbound GET
that `check_link` performs.  Python dicts are modelled by insertion-order
association lists, `Counter` by an insertion-ordered count list, and the
mutable shared result records of `run_link_audit` by an explicit store.
-/

/-- The observable result of one outbound `requests.get` call:
an HTTP response with some status code, a timeout, a connection error,
or any other exception (e.g. a malformed URL). These are exactly the
four cases distinguished by `check_link`'s `try/except` chain. -/
inductive ProbeResult where
  | response (status : Nat)
  | timeout
  | connectionError
  | otherFailure
deriving DecidableEq

/-- One entry of the `results` list built by `check_link`
(`{'link': ..., 'status_code': ..., 'status_category': ...}`).
`status_code = none` models the Python sentinel `'N/A'`. -/
structure LinkResult where
  link : String
  status_code : Option Nat
  status_category : String
deriving DecidableEq

/-- `src/http_auditor_service.py` lines 34-52 (identical in
`src/link_auditor_service.py` lines 13-31): probe one link and classify
the outcome.  A response with status `s` gives category `"{s // 100}xx"`;
`requests.exceptions.Timeout` gives `'Timeout'`;
`requests.exceptions.ConnectionError` gives `'Connection Error'`;
any other exception gives `'Invalid URL'`.  The Lean function is total:
no case of the probe escapes as an exception, matching the
catch-all `except Exception` in the source. -/
def check_link (link : String) (probe : String → ProbeResult) : LinkResult :=
  match probe link with
  | .response s => { link := link, status_code := some s, status_category := toString (s / 100) ++ "xx" }
  | .timeout => { link := link, status_code := none, status_category := "Timeout" }
  | .connectionError => { link := link, status_code := none, status_category := "Connection Error" }
  | .otherFailure => { link := link, status_code := none, status_category := "Invalid URL" }

/-- Python's `str(res['status_code'])` where the code is an int or the
string `'N/A'`. -/
def statusStr : Option Nat → String
  | some n => toString n
  | none => "N/A"

/-- First-occurrence deduplication, the multiset semantics of Python's
`set(links)` (iteration order of a Python set is arbitrary; theorems that
depend on the order of probe results quantify over permutations). -/
def uniq (l : List String) : List String :=
  l.foldl (fun acc x => if x ∈ acc then acc else acc ++ [x]) []

/-- `MAX_LINK_CHECKER_THREADS` from both services. -/
def MAX_LINK_CHECKER_THREADS : Nat := 10

/-- The links actually probed by `check_links_threaded`'s workers: each
unique link is claimed by exactly one worker, and the guard `if link:`
skips empty links without probing them. -/
def probedLinks (links : List String) : List String :=
  (uniq links).filter (fun l => l ≠ "")

/-- `check_links_threaded` (both services, lines 54-69 / 33-48):
deduplicate the links, probe each nonempty unique link exactly once, and
collect one `LinkResult` per probed link.  The list order stands in for
the nondeterministic completion order; order-sensitive claims are
settled by quantifying over permutations of this list. -/
def check_links_threaded (links : List String) (probe : String → ProbeResult) : List LinkResult :=
  (probedLinks links).map (fun l => check_link l probe)

/-- One occurrence of a link in a document: the source file, its title
and the anchor text, as stored in `file_link_map` by `run_http_audit`. -/
structure Occurrence where
  file : String
  title : String
  anchor : String
deriving DecidableEq

/-- Append-or-create on an insertion-ordered association list: the
semantics of `file_link_map.setdefault`-style code
(`if link not in file_link_map: ... ; file_link_map[link].append(...)`). -/
def addOcc (m : List (String × List Occurrence)) (link : String) (occ : Occurrence) :
    List (String × List Occurrence) :=
  if m.any (fun p => p.1 = link) then
    m.map (fun p => if p.1 = link then (p.1, p.2 ++ [occ]) else p)
  else
    m ++ [(link, [occ])]

/-- `run_http_audit` lines 114-122: fold the extracted (url, occurrence)
stream into `links_to_check` and `file_link_map`. -/
def buildLinkData (occs : List (String × Occurrence)) :
    List String × List (String × List Occurrence) :=
  occs.foldl (fun acc p => (acc.1 ++ [p.1], addOcc acc.2 p.1 p.2)) ([], [])

/-- `file_link_map.get(link, [])`. -/
def lookupOccs (m : List (String × List Occurrence)) (link : String) : List Occurrence :=
  ((m.find? (fun p => p.1 = link)).map Prod.snd).getD []

/-- One row of `detailed_results` in `run_http_audit`. -/
structure DetailRow where
  file : String
  title : String
  anchor : String
  link : String
  status_code : Option Nat
  status_category : String
deriving DecidableEq

/-- The filter condition of `run_http_audit` lines 136-139:
`"*" in http_codes_to_find or status_str in http_codes_to_find or
res['status_category'] in http_codes_to_find`. -/
def rowPasses (codes : List String) (r : LinkResult) : Bool :=
  codes.contains "*" || codes.contains (statusStr r.status_code) ||
    codes.contains r.status_category

/-- One merged row of `run_http_audit` lines 143-150: the occurrence
fields together with the outcome fields of its link. -/
def mkRow (res : LinkResult) (s : Occurrence) : DetailRow :=
  { file := s.file, title := s.title, anchor := s.anchor,
    link := res.link, status_code := res.status_code,
    status_category := res.status_category }

/-- `run_http_audit` lines 132-150: for each probe result (in recorded
order), if it passes the filter, emit one row per occurrence of its
link. -/
def detailed_results (m : List (String × List Occurrence)) (link_results : List LinkResult)
    (codes : List String) : List DetailRow :=
  link_results.flatMap (fun res =>
    if rowPasses codes res then (lookupOccs m res.link).map (mkRow res) else [])

/-- `Counter(...)` rendered as `dict(...)`: insertion-ordered list of
(key, count) pairs, counting over the whole input. -/
def counter (xs : List String) : List (String × Nat) :=
  (uniq xs).map (fun c => (c, (xs.filter (fun x => x = c)).length))

/-- The JSON answer of `run_http_audit`: the `analytics` object and the
`details` list. -/
structure Report where
  total_links_checked : Nat
  status_counts : List (String × Nat)
  details : List DetailRow
deriving DecidableEq

/-- The aggregation stage of `run_http_audit` (lines 128-156), as a
function of the already-recorded probe results, so that claims about the
nondeterministic recording order can quantify over it. -/
def http_from_results (m : List (String × List Occurrence)) (link_results : List LinkResult)
    (codes : List String) : Report :=
  { total_links_checked := link_results.length
  , status_counts := counter (link_results.map (fun r => r.status_category))
  , details := detailed_results m link_results codes }

/-- `run_http_audit` (lines 93-156) from the extracted occurrence
stream: build the link data, short-circuit when there is nothing to
check, otherwise probe and aggregate. -/
def run_http_audit (occs : List (String × Occurrence)) (codes : List String)
    (probe : String → ProbeResult) : Report :=
  let links_to_check := (buildLinkData occs).1
  if links_to_check = [] then
    { total_links_checked := 0, status_counts := [], details := [] }
  else
    http_from_results (buildLinkData occs).2 (check_links_threaded links_to_check probe) codes

/-- The outbound GET requests a call to `run_http_audit` performs: none
when the short circuit fires, otherwise one per nonempty unique link. -/
def issued_probes (occs : List (String × Occurrence)) : List String :=
  let links_to_check := (buildLinkData occs).1
  if links_to_check = [] then [] else probedLinks links_to_check

/-- Python dict assignment `m[k] = v` on an insertion-ordered
association list: overwrite in place when the key exists, append
otherwise. -/
def dictSet {α : Type} (m : List (String × α)) (k : String) (v : α) : List (String × α) :=
  if m.any (fun p => p.1 = k) then m.map (fun p => if p.1 = k then (k, v) else p)
  else m ++ [(k, v)]

/-- Python dict lookup `m[k]` / `k in m`. -/
def dictGet {α : Type} (m : List (String × α)) (k : String) : Option α :=
  (m.find? (fun p => p.1 = k)).map Prod.snd

/-- The per-file input of `run_link_audit` after the extraction step:
relative file name, document title, and the extracted
`(link, text)` pairs in document order. -/
structure LAFile where
  rel_file : String
  title : String
  links_with_text : List (String × String)
deriving DecidableEq

/-- The value stored in `run_link_audit`'s `file_link_map`
(`{'title': ..., 'links_with_text': ...}`). -/
structure LAFileInfo where
  title : String
  links_with_text : List (String × String)
deriving DecidableEq

/-- `run_link_audit` lines 75-91: build `links_to_check` and
`file_link_map`, skipping files with no extracted links. -/
def la_build (files : List LAFile) : List String × List (String × LAFileInfo) :=
  files.foldl (fun acc f =>
    if f.links_with_text = [] then acc
    else (acc.1 ++ f.links_with_text.map Prod.fst,
          dictSet acc.2 f.rel_file ⟨f.title, f.links_with_text⟩)) ([], [])

/-- `run_link_audit` lines 69-70: if `'Other'` was selected, extend the
selection with the three error categories (the code's spellings). -/
def expandStatuses (selected : List String) : List String :=
  if selected.contains "Other" then
    selected ++ ["Timeout", "Connection Error", "Invalid URL"]
  else selected

/-- `run_link_audit` line 102: the dict comprehension
`{res['link']: res for res in link_results if res['status_category'] in
selected_statuses}`. -/
def result_map (link_results : List LinkResult) (selected : List String) :
    List (String × LinkResult) :=
  (link_results.filter (fun r => selected.contains r.status_category)).foldl
    (fun m r => dictSet m r.link r) []

/-- One `detailed_results` entry of `run_link_audit` before
serialization: the per-file `links` list holds references to the shared
result records, identified here by their link (the dict key). -/
structure LAPtrFile where
  file : String
  title : String
  links : List String
deriving DecidableEq

/-- `run_link_audit` lines 104-120, with the mutable `result['text']`
field made explicit as a store from link to its current text: each
occurrence whose link is in `result_map` overwrites the shared record's
text and appends a reference to that record. -/
def la_loop (fmap : List (String × LAFileInfo)) (rmap : List (String × LinkResult)) :
    List (String × String) × List LAPtrFile :=
  fmap.foldl (fun acc entry =>
    let inner := entry.2.links_with_text.foldl
      (fun (acc2 : List (String × String) × List String) lt =>
        if rmap.any (fun p => p.1 = lt.1) then (dictSet acc2.1 lt.1 lt.2, acc2.2 ++ [lt.1])
        else acc2) (acc.1, [])
    (inner.1, acc.2 ++ (if inner.2 = [] then [] else [⟨entry.1, entry.2.title, inner.2⟩])))
  ([], [])

/-- One serialized row of a `run_link_audit` detail entry: the shared
result record as it stands when `jsonify` runs, i.e. after every
`result['text'] = ...` assignment of the loop. -/
structure LARow where
  link : String
  status_code : Option Nat
  status_category : String
  text : String
deriving DecidableEq

/-- One serialized `detailed_results` entry of `run_link_audit`. -/
structure LAFileDetail where
  file : String
  title : String
  links : List LARow
deriving DecidableEq

/-- Serialization of one detail entry: dereference each record pointer
against the result map and the final state of the text store. -/
def la_material (rmap : List (String × LinkResult)) (store : List (String × String))
    (p : LAPtrFile) : LAFileDetail :=
  { file := p.file, title := p.title,
    links := p.links.map (fun l =>
      let r := (dictGet rmap l).getD { link := l, status_code := none, status_category := "" }
      { link := r.link, status_code := r.status_code,
        status_category := r.status_category, text := (dictGet store l).getD "" }) }

/-- The JSON answer of `run_link_audit`. -/
structure LAReport where
  total_links_checked : Nat
  status_counts : List (String × Nat)
  details : List LAFileDetail
deriving DecidableEq

/-- The aggregation stage of `run_link_audit` (lines 99-126) as a
function of the recorded probe results. -/
def la_from_results (fmap : List (String × LAFileInfo)) (link_results : List LinkResult)
    (selected : List String) : LAReport :=
  let rmap := result_map link_results selected
  let lp := la_loop fmap rmap
  { total_links_checked := link_results.length
  , status_counts := counter (link_results.map (fun r => r.status_category))
  , details := lp.2.map (la_material rmap lp.1) }

/-- `run_link_audit` (lines 60-126) from the per-file extracted data. -/
def run_link_audit (files : List LAFile) (link_audit_statuses : List String)
    (probe : String → ProbeResult) : LAReport :=
  let selected := expandStatuses link_audit_statuses
  let bd := la_build files
  if bd.1 = [] then { total_links_checked := 0, status_counts := [], details := [] }
  else la_from_results bd.2 (check_links_threaded bd.1 probe) selected

/-- The outbound GET requests a call to `run_link_audit` performs. -/
def la_issued_probes (files : List LAFile) : List String :=
  let bd := la_build files
  if bd.1 = [] then [] else probedLinks bd.1

/-- Split a character list at its first `')'`; the semantics of the
greedy `[^\)]+` followed by the literal `\)` in the link patterns. -/
def splitAtCloseParen : List Char → Option (List Char × List Char)
  | [] => none
  | c :: cs =>
    if c = ')' then some ([], cs)
    else
      match splitAtCloseParen cs with
      | some (a, b) => some (c :: a, b)
      | none => none

/-- The `[^\)]+` body and closing `\)` after a scheme prefix: the body
is everything up to the first `')'` and must be nonempty; the URL group
is the scheme followed by the body. -/
def matchUrlBody (scheme rest : List Char) : Option (List Char × List Char) :=
  match splitAtCloseParen rest with
  | some (body, after) => if body = [] then none else some (scheme ++ body, after)
  | none => none

/-- Match `(https?://[^\)]+)\)` against the characters following the
literal `'('`: on success return the captured URL group and the
characters after the closing `')'`. -/
def matchUrl (cs : List Char) : Option (List Char × List Char) :=
  if cs.take 8 = "https://".data then matchUrlBody ("https://".data) (cs.drop 8)
  else if cs.take 7 = "http://".data then matchUrlBody ("http://".data) (cs.drop 7)
  else none

/-- Does `\]\((https?://[^\)]+)\)` match right here?  `c` is the current
character, `cs` what follows. -/
def endsHere (c : Char) (cs : List Char) : Option (List Char × List Char) :=
  if c = ']' then
    match cs with
    | '(' :: cs2 => matchUrl cs2
    | _ => none
  else none

/-- The lazy `(.*?)\]\((https?://[^\)]+)\)` search after an opening
`'['`: the text group grows (never across a newline, since `.` does not
match one) until the tail pattern first matches; returns
(text, url, rest after the match). -/
def findTextUrl : List Char → Option (List Char × List Char × List Char)
  | [] => none
  | c :: cs =>
    match endsHere c cs with
    | some (u, rest) => some ([], u, rest)
    | none =>
      if c = '\n' then none
      else
        match findTextUrl cs with
        | some (t, u, r) => some (c :: t, u, r)
        | none => none

/-- One fuel-indexed step list of the scan for
`re.findall(r'\[(.*?)\]\((https?://[^\)]+)\)', content)`: leftmost,
non-overlapping matches, every match starting at a `'['`; a failed
attempt advances one character, a successful match resumes after its
closing `')'`.  Every step consumes at least one character, so fuel
equal to the input length (as supplied by `findLinkMatches`) never runs
out. -/
def scanLinks (fuel : Nat) (l : List Char) : List (String × String) :=
  match fuel, l with
  | 0, _ => []
  | _, [] => []
  | fuel + 1, c :: cs =>
    if c = '[' then
      match findTextUrl cs with
      | some (t, u, rest) => (String.mk t, String.mk u) :: scanLinks fuel rest
      | none => scanLinks fuel cs
    else scanLinks fuel cs

/-- `re.findall(r'\[(.*?)\]\((https?://[^\)]+)\)', content)`. -/
def findLinkMatches (l : List Char) : List (String × String) :=
  scanLinks l.length l

/-- Scan for `re.findall(r'!\[.*?\]\((https?://[^\)]+)\)', content)`:
like the link pattern but anchored at `'!'`-then-`'['`, returning only
the URL group. -/
def scanImages (fuel : Nat) (l : List Char) : List String :=
  match fuel, l with
  | 0, _ => []
  | _, [] => []
  | fuel + 1, c :: cs =>
    if c = '!' then
      match cs with
      | '[' :: cs2 =>
        match findTextUrl cs2 with
        | some (_, u, rest) => String.mk u :: scanImages fuel rest
        | none => scanImages fuel cs
      | _ => scanImages fuel cs
    else scanImages fuel cs

/-- `re.findall(r'!\[.*?\]\((https?://[^\)]+)\)', content)`. -/
def findImageMatches (l : List Char) : List String :=
  scanImages l.length l

/-- `run_http_audit` lines 102-122: occurrences extracted from one file
(links first, then images with the `'[Image]'` sentinel), as the
(url, occurrence) stream fed to `buildLinkData`. -/
def extract_occurrences (rel_file title content : String) : List (String × Occurrence) :=
  (findLinkMatches content.data).map (fun tu => (tu.2, ⟨rel_file, title, tu.1⟩)) ++
    (findImageMatches content.data).map (fun u => (u, ⟨rel_file, title, "[Image]"⟩))

/-- `run_http_audit` over a corpus of markdown files given as
(relative name, title, content). -/
def run_http_audit_files (mdfiles : List (String × String × String)) (codes : List String)
    (probe : String → ProbeResult) : Report :=
  run_http_audit (mdfiles.flatMap (fun f => extract_occurrences f.1 f.2.1 f.2.2)) codes probe

/-- The state of one worker thread of `check_links_threaded`: waiting
between queue items, inside `check_link` for some link, or exited from
its `while` loop. -/
inductive WorkerState where
  | idle
  | probing (link : String)
  | finished
deriving DecidableEq

/-- Whether a worker currently has a probe in flight. -/
def WorkerState.isProbing : WorkerState → Bool
  | .probing _ => true
  | _ => false

/-- An interleaving state of `check_links_threaded`: the remaining work
queue and the per-worker states. -/
structure PoolState where
  queue : List String
  workers : List WorkerState
deriving DecidableEq

/-- `check_links_threaded` lines 56-67: the queue is filled with the
unique links and `min(MAX_LINK_CHECKER_THREADS, len(unique_links))`
worker threads are started. -/
def initPool (links : List String) : PoolState :=
  { queue := uniq links
  , workers := List.replicate (min MAX_LINK_CHECKER_THREADS (uniq links).length) .idle }

/-- One interleaving step of the worker loop
`while not link_queue.empty(): link = link_queue.get();
if link: check_link(...); link_queue.task_done()`:
an idle worker claims the next queue item (probing it when nonempty,
skipping it otherwise), a probing worker completes its request, or an
idle worker observes the empty queue and exits. -/
inductive PoolStep : PoolState → PoolState → Prop where
  | claim (s : PoolState) (i : Nat) (l : String) (rest : List String)
      (hw : s.workers[i]? = some .idle) (hq : s.queue = l :: rest) (hl : l ≠ "") :
      PoolStep s ⟨rest, s.workers.set i (.probing l)⟩
  | claimEmpty (s : PoolState) (i : Nat) (l : String) (rest : List String)
      (hw : s.workers[i]? = some .idle) (hq : s.queue = l :: rest) (hl : l = "") :
      PoolStep s ⟨rest, s.workers⟩
  | complete (s : PoolState) (i : Nat) (l : String)
      (hw : s.workers[i]? = some (.probing l)) :
      PoolStep s ⟨s.queue, s.workers.set i .idle⟩
  | exitLoop (s : PoolState) (i : Nat)
      (hw : s.workers[i]? = some .idle) (hq : s.queue = []) :
      PoolStep s ⟨s.queue, s.workers.set i .finished⟩

/-- The number of probes in flight in a pool state. -/
def inFlight (s : PoolState) : Nat :=
  (s.workers.filter WorkerState.isProbing).length

/-- The store-only effect of `run_link_audit`'s detail loop on the
shared records' mutable `text` field: fold the occurrence stream,
assigning the occurrence's text to its link's record whenever the link
is in the result map. -/
def la_store (rmap : List (String × LinkResult)) (os : List (String × String))
    (st : List (String × String)) : List (String × String) :=
  os.foldl (fun st lt =>
    if rmap.any (fun p => p.1 = lt.1) then dictSet st lt.1 lt.2 else st) st

/-! ## Helper lemmas -/

theorem uniq_fold_mem (l : List String) :
    ∀ (acc : List String) (x : String),
      (x ∈ l.foldl (fun acc y => if y ∈ acc then acc else acc ++ [y]) acc ↔ x ∈ acc ∨ x ∈ l) := by
  induction l with
  | nil => intro acc x; simp
  | cons y ys ih =>
    intro acc x
    simp only [List.foldl_cons]
    by_cases hy : y ∈ acc
    · rw [if_pos hy, ih]
      simp only [List.mem_cons]
      constructor
      · rintro (h | h)
        · exact Or.inl h
        · exact Or.inr (Or.inr h)
      · rintro (h | rfl | h)
        · exact Or.inl h
        · exact Or.inl hy
        · exact Or.inr h
    · rw [if_neg hy, ih]
      simp only [List.mem_append, List.mem_singleton, List.mem_cons]
      tauto

theorem uniq_mem (l : List String) (x : String) : x ∈ uniq l ↔ x ∈ l := by
  unfold uniq
  rw [uniq_fold_mem]
  simp

theorem uniq_fold_nodup (l : List String) :
    ∀ acc : List String, acc.Nodup →
      (l.foldl (fun acc y => if y ∈ acc then acc else acc ++ [y]) acc).Nodup := by
  induction l with
  | nil => intro acc h; simpa using h
  | cons y ys ih =>
    intro acc h
    simp only [List.foldl_cons]
    by_cases hy : y ∈ acc
    · rw [if_pos hy]
      exact ih acc h
    · rw [if_neg hy]
      refine ih _ ?_
      simp [List.nodup_append, h, hy]

theorem uniq_nodup (l : List String) : (uniq l).Nodup :=
  uniq_fold_nodup l [] List.nodup_nil

theorem uniq_count (l : List String) (x : String) (h : x ∈ l) : (uniq l).count x = 1 :=
  List.count_eq_one_of_mem (uniq_nodup l) ((uniq_mem l x).mpr h)

theorem probedLinks_count (links : List String) (url : String) (h : url ∈ links)
    (h2 : url ≠ "") : (probedLinks links).count url = 1 := by
  unfold probedLinks
  rw [List.count_filter (by simp [h2])]
  exact uniq_count links url h

theorem probedLinks_nodup (links : List String) : (probedLinks links).Nodup :=
  (uniq_nodup links).filter _

theorem find?_key_map {α : Type} (m : List (String × α)) (g : String × α → String × α)
    (hg : ∀ p, (g p).1 = p.1) (k : String) :
    (m.map g).find? (fun p => p.1 = k) = (m.find? (fun p => p.1 = k)).map g := by
  rw [List.find?_map]
  have hfg : ((fun p : String × α => decide (p.1 = k)) ∘ g) =
      (fun p : String × α => decide (p.1 = k)) := by
    funext p
    simp [Function.comp, hg p]
  rw [hfg]

theorem any_key_iff {α : Type} (m : List (String × α)) (k : String) :
    m.any (fun p => p.1 = k) = true ↔ ∃ p ∈ m, p.1 = k := by
  simp

theorem find?_key_eq_none {α : Type} (m : List (String × α)) (k : String)
    (h : m.any (fun p => p.1 = k) = false) : m.find? (fun p => p.1 = k) = none := by
  rw [List.find?_eq_none]
  intro p hp
  simp only [List.any_eq_false] at h
  simpa using h p hp

theorem dictGet_dictSet {α : Type} (m : List (String × α)) (k k2 : String) (v : α) :
    dictGet (dictSet m k v) k2 = if k2 = k then some v else dictGet m k2 := by
  unfold dictGet dictSet
  by_cases ha : m.any (fun p => p.1 = k) = true
  · rw [if_pos ha]
    rw [find?_key_map m _ (fun p => by by_cases h : p.1 = k <;> simp [h]) k2]
    by_cases hk : k2 = k
    · subst hk
      rcases hf : m.find? (fun p => p.1 = k2) with _ | q
      · exfalso
        rw [List.find?_eq_none] at hf
        rcases (any_key_iff m k2).mp ha with ⟨p, hp, hpk⟩
        exact hf p hp (by simp [hpk])
      · obtain ⟨qk, qv⟩ := q
        have hq : qk = k2 := by simpa using List.find?_some hf
        subst hq
        rw [hf]
        simp
    · rw [if_neg hk]
      rcases hf : m.find? (fun p => p.1 = k2) with _ | q
      · rw [hf]
        simp
      · obtain ⟨qk, qv⟩ := q
        have hq : qk = k2 := by simpa using List.find?_some hf
        subst hq
        rw [hf]
        simp [hk]
  · rw [if_neg ha]
    by_cases hk : k2 = k
    · subst hk
      rw [if_pos rfl, List.find?_append, find?_key_eq_none m k2 (by rwa [Bool.not_eq_true] at ha)]
      rw [List.find?_cons_of_pos _ (by simp)]
      simp
    · rw [if_neg hk, List.find?_append]
      have h1 : List.find? (fun p => p.1 = k2) [(k, v)] = none := by
        rw [List.find?_eq_none]
        intro p hp
        simp only [List.mem_singleton] at hp
        subst hp
        simp [Ne.symm hk]
      rw [h1]
      simp

theorem lookupOccs_addOcc (m : List (String × List Occurrence)) (l url : String) (o : Occurrence) :
    lookupOccs (addOcc m l o) url =
      if url = l then lookupOccs m url ++ [o] else lookupOccs m url := by
  unfold lookupOccs addOcc
  by_cases ha : m.any (fun p => p.1 = l) = true
  · rw [if_pos ha]
    rw [find?_key_map m _ (fun p => by by_cases h : p.1 = l <;> simp [h]) url]
    by_cases hu : url = l
    · subst hu
      rcases hf : m.find? (fun p => p.1 = url) with _ | q
      · exfalso
        rw [List.find?_eq_none] at hf
        rcases (any_key_iff m url).mp ha with ⟨p, hp, hpk⟩
        exact hf p hp (by simp [hpk])
      · obtain ⟨qk, qv⟩ := q
        have hq : qk = url := by simpa using List.find?_some hf
        subst hq
        rw [hf]
        simp
    · rw [if_neg hu]
      rcases hf : m.find? (fun p => p.1 = url) with _ | q
      · rw [hf]
        simp
      · obtain ⟨qk, qv⟩ := q
        have hq : qk = url := by simpa using List.find?_some hf
        subst hq
        rw [hf]
        simp [hu]
  · rw [if_neg ha]
    by_cases hu : url = l
    · subst hu
      rw [if_pos rfl, List.find?_append,
        find?_key_eq_none m url (by rwa [Bool.not_eq_true] at ha)]
      rw [List.find?_cons_of_pos _ (by simp)]
      simp
    · rw [if_neg hu, List.find?_append]
      have h1 : List.find? (fun p => p.1 = url) [(l, [o])] = none := by
        rw [List.find?_eq_none]
        intro p hp
        simp only [List.mem_singleton] at hp
        subst hp
        simp
        exact fun hh => hu hh.symm
      rw [h1]
      simp

theorem buildLinkData_fold (occs : List (String × Occurrence)) :
    ∀ acc : List String × List (String × List Occurrence),
      occs.foldl (fun acc p => (acc.1 ++ [p.1], addOcc acc.2 p.1 p.2)) acc =
        (acc.1 ++ occs.map Prod.fst, occs.foldl (fun m p => addOcc m p.1 p.2) acc.2) := by
  induction occs with
  | nil => intro acc; simp
  | cons p ps ih =>
    intro acc
    simp only [List.foldl_cons]
    rw [ih]
    simp

theorem buildLinkData_fst (occs : List (String × Occurrence)) :
    (buildLinkData occs).1 = occs.map Prod.fst := by
  unfold buildLinkData
  rw [buildLinkData_fold]
  simp

theorem buildLinkData_snd (occs : List (String × Occurrence)) :
    (buildLinkData occs).2 = occs.foldl (fun m p => addOcc m p.1 p.2) [] := by
  unfold buildLinkData
  rw [buildLinkData_fold]

theorem lookupOccs_fold (occs : List (String × Occurrence)) :
    ∀ (m : List (String × List Occurrence)) (url : String),
      lookupOccs (occs.foldl (fun m p => addOcc m p.1 p.2) m) url =
        lookupOccs m url ++ (occs.filter (fun p => p.1 = url)).map Prod.snd := by
  induction occs with
  | nil => intro m url; simp
  | cons p ps ih =>
    intro m url
    simp only [List.foldl_cons]
    rw [ih, lookupOccs_addOcc]
    by_cases h : url = p.1
    · rw [if_pos h]
      have hf : List.filter (fun q => q.1 = url) (p :: ps) =
          p :: ps.filter (fun q => q.1 = url) := by
        rw [List.filter_cons_of_pos]
        simp [h]
      rw [hf]
      simp
    · rw [if_neg h]
      have hf : List.filter (fun q => q.1 = url) (p :: ps) =
          ps.filter (fun q => q.1 = url) := by
        rw [List.filter_cons_of_neg]
        simp
        exact fun hh => h hh.symm
      rw [hf]

theorem lookupOccs_buildLinkData (occs : List (String × Occurrence)) (url : String) :
    lookupOccs (buildLinkData occs).2 url = (occs.filter (fun p => p.1 = url)).map Prod.snd := by
  rw [buildLinkData_snd, lookupOccs_fold]
  simp [lookupOccs]

theorem nxx_last_char (n : Nat) : (toString n ++ "xx").data.getLast? = some 'x' := by
  rw [String.data_append]
  rw [List.getLast?_append_of_ne_nil _ (by decide)]
  decide

theorem nxx_ne (n : Nat) (w : String) (hw : w.data.getLast? ≠ some 'x') :
    toString n ++ "xx" ≠ w := by
  intro h
  have h2 := congrArg (fun s : String => s.data.getLast?) h
  simp only [nxx_last_char] at h2
  exact hw h2.symm

theorem foldl_id {α β : Type} (f : α → β → α) (h : ∀ a b, f a b = a) :
    ∀ (l : List β) (a : α), l.foldl f a = a := by
  intro l
  induction l with
  | nil => intro a; rfl
  | cons b bs ih =>
    intro a
    rw [List.foldl_cons, h]
    exact ih a

theorem la_inner_empty (lts : List (String × String)) :
    ∀ st : List (String × String) × List String,
      lts.foldl (fun acc2 lt =>
        if ([] : List (String × LinkResult)).any (fun p => p.1 = lt.1) then
          (dictSet acc2.1 lt.1 lt.2, acc2.2 ++ [lt.1])
        else acc2) st = st := by
  induction lts with
  | nil => intro st; rfl
  | cons lt lts ih =>
    intro st
    simp only [List.foldl_cons, List.any_nil]
    exact ih st

theorem la_loop_empty_rmap (fmap : List (String × LAFileInfo)) :
    la_loop fmap [] = ([], []) := by
  unfold la_loop
  refine foldl_id _ ?_ fmap ([], [])
  intro acc entry
  simp [la_inner_empty]

theorem probedLinks_all_empty (links : List String) (h : ∀ l ∈ links, l = "") :
    probedLinks links = [] := by
  unfold probedLinks
  rw [List.filter_eq_nil_iff]
  intro l hl
  have := h l ((uniq_mem links l).mp hl)
  simp [this]

theorem la_build_fst (files : List LAFile) :
    (la_build files).1 = files.flatMap (fun f => f.links_with_text.map Prod.fst) := by
  unfold la_build
  suffices hgen : ∀ acc : List String × List (String × LAFileInfo),
      (files.foldl (fun acc f =>
        if f.links_with_text = [] then acc
        else (acc.1 ++ f.links_with_text.map Prod.fst,
              dictSet acc.2 f.rel_file ⟨f.title, f.links_with_text⟩)) acc).1 =
      acc.1 ++ files.flatMap (fun f => f.links_with_text.map Prod.fst) by
    simpa using hgen ([], [])
  induction files with
  | nil => intro acc; simp
  | cons f fs ih =>
    intro acc
    simp only [List.foldl_cons]
    by_cases hf : f.links_with_text = []
    · rw [if_pos hf, ih]
      simp [hf]
    · rw [if_neg hf, ih]
      simp

/-- C3: every probe outcome is classified deterministically and
exhaustively by `check_link`: an HTTP response with status `s` yields
`statusCode = s` and category `"{s div 100}xx"`; a timeout yields
`Timeout` (spelled `'Timeout'`) with no status code; a connection
failure yields the connection-error category (spelled
`'Connection Error'` in the code); any other failure yields the
invalid-URL category (spelled `'Invalid URL'`); the status code is
present iff the probe produced a response, and each failure category
occurs for exactly its own probe case.  `check_link` is a total
function of the probe outcome, so no per-probe failure escapes as an
exception, matching the catch-all `except` chain. -/
theorem check_link_classification (link : String) (probe : String → ProbeResult) :
    (check_link link probe).link = link ∧
    (match probe link with
     | .response s => (check_link link probe).status_code = some s ∧
         (check_link link probe).status_category = toString (s / 100) ++ "xx"
     | .timeout => (check_link link probe).status_code = none ∧
         (check_link link probe).status_category = "Timeout"
     | .connectionError => (check_link link probe).status_code = none ∧
         (check_link link probe).status_category = "Connection Error"
     | .otherFailure => (check_link link probe).status_code = none ∧
         (check_link link probe).status_category = "Invalid URL") ∧
    ((check_link link probe).status_code.isSome ↔ ∃ s, probe link = .response s) ∧
    ((check_link link probe).status_category = "Timeout" ↔ probe link = .timeout) ∧
    ((check_link link probe).status_category = "Connection Error" ↔
      probe link = .connectionError) ∧
    ((check_link link probe).status_category = "Invalid URL" ↔
      probe link = .otherFailure) := by
  have h1 : ∀ n, toString n ++ "xx" ≠ "Timeout" := fun n => nxx_ne n _ (by decide)
  have h2 : ∀ n, toString n ++ "xx" ≠ "Connection Error" := fun n => nxx_ne n _ (by decide)
  have h3 : ∀ n, toString n ++ "xx" ≠ "Invalid URL" := fun n => nxx_ne n _ (by decide)
  rcases hp : probe link with s | _ | _ | _ <;>
    simp [check_link, hp, h1, h2, h3]

/-- C4: for a fixed occurrence list / file list and a fixed probe
oracle, two audit runs that differ only in the requested filter have the
same `totalChecked` and the same `statusCounts` (computed before any
filtering), in both `run_http_audit` and `run_link_audit`. -/
theorem counts_independent_of_filter (occs : List (String × Occurrence)) (files : List LAFile)
    (codes1 codes2 statuses1 statuses2 : List String) (probe : String → ProbeResult) :
    (run_http_audit occs codes1 probe).total_links_checked
      = (run_http_audit occs codes2 probe).total_links_checked ∧
    (run_http_audit occs codes1 probe).status_counts
      = (run_http_audit occs codes2 probe).status_counts ∧
    (run_link_audit files statuses1 probe).total_links_checked
      = (run_link_audit files statuses2 probe).total_links_checked ∧
    (run_link_audit files statuses1 probe).status_counts
      = (run_link_audit files statuses2 probe).status_counts := by
  unfold run_http_audit run_link_audit la_from_results http_from_results
  by_cases h : (buildLinkData occs).1 = [] <;>
    by_cases h2 : (la_build files).1 = [] <;>
      simp [h, h2]

/-- C7: when the occurrence list is empty or holds no probeable URL
(every extracted url is the empty string; the extraction regexes already
restrict to nonempty http/https URLs), both audits return the empty
report `{totalChecked: 0, statusCounts: {}, details: []}` immediately
and issue zero outbound requests. -/
theorem empty_input_short_circuit (occs : List (String × Occurrence)) (files : List LAFile)
    (codes statuses : List String) (probe : String → ProbeResult)
    (hocc : ∀ p ∈ occs, p.1 = "")
    (hfiles : ∀ f ∈ files, ∀ lt ∈ f.links_with_text, lt.1 = "") :
    run_http_audit occs codes probe =
      { total_links_checked := 0, status_counts := [], details := [] } ∧
    issued_probes occs = [] ∧
    run_link_audit files statuses probe =
      { total_links_checked := 0, status_counts := [], details := [] } ∧
    la_issued_probes files = [] := by
  have hlinks : ∀ l ∈ (buildLinkData occs).1, l = "" := by
    rw [buildLinkData_fst]
    intro l hl
    rcases List.mem_map.mp hl with ⟨p, hp, rfl⟩
    exact hocc p hp
  have hlalinks : ∀ l ∈ (la_build files).1, l = "" := by
    rw [la_build_fst]
    intro l hl
    rcases List.mem_flatMap.mp hl with ⟨f, hf, hl2⟩
    rcases List.mem_map.mp hl2 with ⟨lt, hlt, rfl⟩
    exact hfiles f hf lt hlt
  refine ⟨?_, ?_, ?_, ?_⟩
  · unfold run_http_audit
    by_cases h : (buildLinkData occs).1 = []
    · rw [if_pos h]
    · rw [if_neg h]
      unfold http_from_results check_links_threaded
      rw [probedLinks_all_empty _ hlinks]
      rfl
  · unfold issued_probes
    by_cases h : (buildLinkData occs).1 = []
    · rw [if_pos h]
    · rw [if_neg h]
      exact probedLinks_all_empty _ hlinks
  · unfold run_link_audit
    by_cases h : (la_build files).1 = []
    · rw [if_pos h]
    · rw [if_neg h]
      unfold la_from_results check_links_threaded
      rw [probedLinks_all_empty _ hlalinks]
      show ({ total_links_checked := _, status_counts := _, details := _ } : LAReport) = _
      have hrm : result_map ([].map (fun l => check_link l probe)) (expandStatuses statuses)
          = [] := rfl
      rw [hrm, la_loop_empty_rmap]
      rfl
  · unfold la_issued_probes
    by_cases h : (la_build files).1 = []
    · rw [if_pos h]
    · rw [if_neg h]
      exact probedLinks_all_empty _ hlalinks

/-- Witness for C7 at `occurrences = []` / `files = []`. -/
theorem empty_input_short_circuit_witness :
    run_http_audit [] ["*"] (fun _ => .timeout) =
      { total_links_checked := 0, status_counts := [], details := [] } ∧
    issued_probes [] = [] ∧
    run_link_audit [] ["*"] (fun _ => .timeout) =
      { total_links_checked := 0, status_counts := [], details := [] } ∧
    la_issued_probes [] = [] :=
  empty_input_short_circuit [] [] ["*"] ["*"] (fun _ => .timeout)
    (by simp) (by simp)

theorem poolStep_workers_length {s s2 : PoolState} (h : PoolStep s s2) :
    s2.workers.length = s.workers.length := by
  cases h <;> simp

theorem reachable_workers_length (s0 s : PoolState)
    (h : Relation.ReflTransGen PoolStep s0 s) : s.workers.length = s0.workers.length := by
  induction h with
  | refl => rfl
  | tail h1 h2 ih => rw [poolStep_workers_length h2, ih]

/-- C8: with the concurrency limit `MAX_LINK_CHECKER_THREADS = 10`, the
pool starts exactly `min 10 n` workers for `n` unique URLs, in every
reachable interleaving state at most `min 10 n` probes are in flight
simultaneously, and for `n = 0` no worker is started (so no probe is
ever in flight and no network I/O happens). -/
theorem checker_pool_concurrency_bound (links : List String) (s : PoolState)
    (h : Relation.ReflTransGen PoolStep (initPool links) s) :
    (initPool links).workers.length = min MAX_LINK_CHECKER_THREADS (uniq links).length ∧
    inFlight s ≤ min MAX_LINK_CHECKER_THREADS (uniq links).length ∧
    ((uniq links).length = 0 → s.workers = [] ∧ inFlight s = 0) := by
  have hlen : s.workers.length = min MAX_LINK_CHECKER_THREADS (uniq links).length := by
    rw [reachable_workers_length _ _ h]
    simp [initPool]
  refine ⟨by simp [initPool], ?_, ?_⟩
  · calc inFlight s ≤ s.workers.length := List.length_filter_le _ _
      _ = _ := hlen
  · intro h0
    have hz : s.workers.length = 0 := by rw [hlen, h0]; simp
    have hw : s.workers = [] := List.eq_nil_of_length_eq_zero hz
    exact ⟨hw, by simp [inFlight, hw]⟩

/-- Witness for C8 at two unique links, at the initial pool state. -/
theorem checker_pool_concurrency_bound_witness :
    (initPool ["http://a", "http://b"]).workers.length
      = min MAX_LINK_CHECKER_THREADS (uniq ["http://a", "http://b"]).length ∧
    inFlight (initPool ["http://a", "http://b"])
      ≤ min MAX_LINK_CHECKER_THREADS (uniq ["http://a", "http://b"]).length :=
  ⟨(checker_pool_concurrency_bound ["http://a", "http://b"] _ Relation.ReflTransGen.refl).1,
   (checker_pool_concurrency_bound ["http://a", "http://b"] _ Relation.ReflTransGen.refl).2.1⟩

theorem check_link_link (l : String) (probe : String → ProbeResult) :
    (check_link l probe).link = l := by
  cases h : probe l <;> simp [check_link, h]

theorem mkRow_link (res : LinkResult) (s : Occurrence) : (mkRow res s).link = res.link := rfl

theorem detailed_results_filter_link (m : List (String × List Occurrence))
    (results : List LinkResult) (codes : List String) (url : String) :
    (detailed_results m results codes).filter (fun r => r.link = url) =
      detailed_results m (results.filter (fun r => r.link = url)) codes := by
  induction results with
  | nil => rfl
  | cons res rs ih =>
    rw [detailed_results, List.flatMap_cons]
    have hgroup : detailed_results m rs codes =
        rs.flatMap (fun res =>
          if rowPasses codes res then (lookupOccs m res.link).map (mkRow res) else []) := rfl
    rw [← hgroup, List.filter_append, ih]
    by_cases hl : res.link = url
    · have h1 : (if rowPasses codes res then (lookupOccs m res.link).map (mkRow res)
          else []).filter (fun r => r.link = url) =
          (if rowPasses codes res then (lookupOccs m res.link).map (mkRow res) else []) := by
        apply List.filter_eq_self.mpr
        intro row hrow
        by_cases hp : rowPasses codes res
        · rw [if_pos hp] at hrow
          rcases List.mem_map.mp hrow with ⟨s, hs, rfl⟩
          simp [mkRow_link, hl]
        · rw [if_neg hp] at hrow
          exact absurd hrow (List.not_mem_nil row)
      rw [h1, List.filter_cons_of_pos (by simp [hl])]
      rfl
    · have h1 : (if rowPasses codes res then (lookupOccs m res.link).map (mkRow res)
          else []).filter (fun r => r.link = url) = [] := by
        rw [List.filter_eq_nil_iff]
        intro row hrow
        by_cases hp : rowPasses codes res
        · rw [if_pos hp] at hrow
          rcases List.mem_map.mp hrow with ⟨s, hs, rfl⟩
          simp [mkRow_link, hl]
        · rw [if_neg hp] at hrow
          exact absurd hrow (List.not_mem_nil row)
      rw [h1, List.filter_cons_of_neg (by simp [hl])]
      rfl

theorem check_links_filter (links : List String) (probe : String → ProbeResult) (url : String) :
    (check_links_threaded links probe).filter (fun r => r.link = url) =
      ((probedLinks links).filter (fun l => l = url)).map (fun l => check_link l probe) := by
  unfold check_links_threaded
  rw [List.filter_map]
  congr 1
  apply List.filter_congr
  intro l hl
  simp [Function.comp, check_link_link]

theorem filter_eq_of_count_one {l : List String} {a : String} (h : l.count a = 1) :
    l.filter (fun x => x = a) = [a] := by
  have hb := List.filter_beq l a
  rw [h] at hb
  have hc : l.filter (fun x => x = a) = l.filter (fun x => x == a) := by
    apply List.filter_congr
    intro x hx
    by_cases hxa : x = a <;> simp [hxa]
  rw [hc]
  simpa using hb

/-- C1: when a URL occurs `k ≥ 1` times in the extracted occurrence
stream, `run_http_audit` probes it exactly once, `totalChecked` is the
number of distinct probeable (nonempty) URLs, and the unfiltered
(`["*"]`) details contain exactly `k` rows for that URL. -/
theorem dedup_invariant (occs : List (String × Occurrence)) (url : String)
    (probe : String → ProbeResult)
    (hk : 1 ≤ (occs.filter (fun p => p.1 = url)).length)
    (hurl : url ≠ "") :
    (issued_probes occs).count url = 1 ∧
    (run_http_audit occs ["*"] probe).total_links_checked
      = (probedLinks (occs.map Prod.fst)).length ∧
    ((run_http_audit occs ["*"] probe).details.filter (fun r => r.link = url)).length
      = (occs.filter (fun p => p.1 = url)).length := by
  have hmem : url ∈ occs.map Prod.fst := by
    rcases List.exists_mem_of_length_pos hk with ⟨p, hp⟩
    rcases List.mem_filter.mp hp with ⟨hpo, hpu⟩
    have hpu2 : p.1 = url := by simpa using hpu
    rw [← hpu2]
    exact List.mem_map_of_mem Prod.fst hpo
  have hne : ¬ (buildLinkData occs).1 = [] := by
    rw [buildLinkData_fst]
    intro h
    rw [h] at hmem
    exact absurd hmem (List.not_mem_nil url)
  have hcount : (probedLinks (occs.map Prod.fst)).count url = 1 :=
    probedLinks_count _ _ hmem hurl
  refine ⟨?_, ?_, ?_⟩
  · unfold issued_probes
    rw [if_neg hne, buildLinkData_fst]
    exact hcount
  · unfold run_http_audit
    rw [if_neg hne]
    unfold http_from_results check_links_threaded
    rw [buildLinkData_fst]
    simp
  · unfold run_http_audit
    rw [if_neg hne]
    show ((detailed_results _ _ _).filter _).length = _
    rw [detailed_results_filter_link, check_links_filter, buildLinkData_fst,
      filter_eq_of_count_one hcount]
    have hpass : rowPasses ["*"] (check_link url probe) = true := by
      simp [rowPasses]
    simp [detailed_results, hpass, check_link_link, lookupOccs_buildLinkData]

/-- Witness for C1: one URL occurring twice across two documents. -/
theorem dedup_invariant_witness :
    (issued_probes [("http://a", ⟨"d1.md", "T1", "x"⟩), ("http://a", ⟨"d2.md", "T2", "y"⟩)]).count
        "http://a" = 1 ∧
    (run_http_audit [("http://a", ⟨"d1.md", "T1", "x"⟩), ("http://a", ⟨"d2.md", "T2", "y"⟩)]
        ["*"] (fun _ => .response 200)).total_links_checked
      = (probedLinks (([("http://a", (⟨"d1.md", "T1", "x"⟩ : Occurrence)),
          ("http://a", ⟨"d2.md", "T2", "y"⟩)]).map Prod.fst)).length ∧
    ((run_http_audit [("http://a", ⟨"d1.md", "T1", "x"⟩), ("http://a", ⟨"d2.md", "T2", "y"⟩)]
        ["*"] (fun _ => .response 200)).details.filter (fun r => r.link = "http://a")).length
      = (([("http://a", (⟨"d1.md", "T1", "x"⟩ : Occurrence)),
          ("http://a", ⟨"d2.md", "T2", "y"⟩)]).filter (fun p => p.1 = "http://a")).length :=
  dedup_invariant [("http://a", ⟨"d1.md", "T1", "x"⟩), ("http://a", ⟨"d2.md", "T2", "y"⟩)]
    "http://a" (fun _ => .response 200) (by decide) (by decide)

theorem mem_dictSet {α : Type} (m : List (String × α)) (k : String) (v : α)
    (p : String × α) (h : p ∈ dictSet m k v) : p ∈ m ∨ p = (k, v) := by
  unfold dictSet at h
  by_cases ha : m.any (fun q => q.1 = k) = true
  · rw [if_pos ha] at h
    rcases List.mem_map.mp h with ⟨q, hq, rfl⟩
    by_cases hqk : q.1 = k
    · rw [if_pos hqk]
      exact Or.inr rfl
    · rw [if_neg hqk]
      exact Or.inl hq
  · rw [if_neg ha] at h
    rcases List.mem_append.mp h with h2 | h2
    · exact Or.inl h2
    · exact Or.inr (List.mem_singleton.mp h2)

theorem result_map_entry (results : List LinkResult) (selected : List String) :
    ∀ p ∈ result_map results selected, p.2.link = p.1 := by
  unfold result_map
  suffices hgen : ∀ (rs : List LinkResult) (acc : List (String × LinkResult)),
      (∀ p ∈ acc, p.2.link = p.1) →
      ∀ p ∈ rs.foldl (fun m r => dictSet m r.link r) acc, p.2.link = p.1 by
    exact hgen _ [] (by intro p hp; exact absurd hp (List.not_mem_nil p))
  intro rs
  induction rs with
  | nil => intro acc hacc p hp; exact hacc p hp
  | cons r rs ih =>
    intro acc hacc p hp
    refine ih _ ?_ p hp
    intro q hq
    rcases mem_dictSet _ _ _ q hq with h2 | h2
    · exact hacc q h2
    · rw [h2]

theorem foldl_dictSet_fresh :
    ∀ (rs : List LinkResult) (acc : List (String × LinkResult)),
      (∀ r ∈ rs, acc.any (fun p => p.1 = r.link) = false) →
      (rs.map (fun r => r.link)).Nodup →
      rs.foldl (fun m r => dictSet m r.link r) acc = acc ++ rs.map (fun r => (r.link, r)) := by
  intro rs
  induction rs with
  | nil => intro acc _ _; simp
  | cons r rs ih =>
    intro acc hfresh hnd
    simp only [List.foldl_cons]
    have hr : acc.any (fun p => p.1 = r.link) = false := hfresh r (List.mem_cons_self r rs)
    have hset : dictSet acc r.link r = acc ++ [(r.link, r)] := by
      unfold dictSet
      rw [if_neg (by simp [hr])]
    rw [hset]
    rw [List.map_cons, List.nodup_cons] at hnd
    rw [ih (acc ++ [(r.link, r)]) ?_ hnd.2]
    · simp
    · intro r2 hr2
      rw [List.any_append]
      have h1 : acc.any (fun p => p.1 = r2.link) = false := hfresh r2 (List.mem_cons_of_mem r hr2)
      have h2 : ¬ r2.link = r.link := by
        intro hh
        exact hnd.1 (by rw [← hh]; exact List.mem_map_of_mem _ hr2)
      have h3 : ¬ r.link = r2.link := fun hh => h2 hh.symm
      simp [h1, h2, h3]

theorem result_map_eq (results : List LinkResult) (selected : List String)
    (hnd : (results.map (fun r => r.link)).Nodup) :
    result_map results selected =
      (results.filter (fun r => selected.contains r.status_category)).map
        (fun r => (r.link, r)) := by
  unfold result_map
  rw [foldl_dictSet_fresh _ [] (by intro r _; rfl) ?_]
  · simp
  · have hsub : (results.filter (fun r => selected.contains r.status_category)).map
        (fun r => r.link) |>.Sublist (results.map (fun r => r.link)) :=
      (List.filter_sublist results).map _
    exact hnd.sublist hsub

theorem results_links (links : List String) (probe : String → ProbeResult) :
    (check_links_threaded links probe).map (fun r => r.link) = probedLinks links := by
  unfold check_links_threaded
  rw [List.map_map]
  have : ((fun r : LinkResult => r.link) ∘ fun l => check_link l probe) = id := by
    funext l
    simp [Function.comp, check_link_link]
  rw [this, List.map_id]

theorem results_links_nodup (links : List String) (probe : String → ProbeResult) :
    ((check_links_threaded links probe).map (fun r => r.link)).Nodup := by
  rw [results_links]
  exact probedLinks_nodup links

theorem la_inner_ptrs (rmap : List (String × LinkResult)) (lts : List (String × String)) :
    ∀ (st : List (String × String)) (ps : List String),
      (lts.foldl (fun acc2 lt =>
        if rmap.any (fun p => p.1 = lt.1) then (dictSet acc2.1 lt.1 lt.2, acc2.2 ++ [lt.1])
        else acc2) (st, ps)).2 =
      ps ++ (lts.filter (fun lt => rmap.any (fun p => p.1 = lt.1))).map Prod.fst := by
  induction lts with
  | nil => intro st ps; simp
  | cons lt lts ih =>
    intro st ps
    simp only [List.foldl_cons]
    by_cases h : rmap.any (fun p => p.1 = lt.1) = true
    · rw [if_pos h, ih, List.filter_cons, if_pos h]
      simp
    · rw [if_neg h, ih, List.filter_cons, if_neg h]

theorem la_inner_store (rmap : List (String × LinkResult)) (lts : List (String × String)) :
    ∀ (st : List (String × String)) (ps : List String),
      (lts.foldl (fun acc2 lt =>
        if rmap.any (fun p => p.1 = lt.1) then (dictSet acc2.1 lt.1 lt.2, acc2.2 ++ [lt.1])
        else acc2) (st, ps)).1 = la_store rmap lts st := by
  unfold la_store
  induction lts with
  | nil => intro st ps; simp
  | cons lt lts ih =>
    intro st ps
    simp only [List.foldl_cons]
    by_cases h : rmap.any (fun p => p.1 = lt.1) = true
    · rw [if_pos h, if_pos h, ih]
    · rw [if_neg h, if_neg h, ih]

theorem la_loop_fold (rmap : List (String × LinkResult)) :
    ∀ (fm : List (String × LAFileInfo)) (acc : List (String × String) × List LAPtrFile),
      fm.foldl (fun acc entry =>
        let inner := entry.2.links_with_text.foldl
          (fun (acc2 : List (String × String) × List String) lt =>
            if rmap.any (fun p => p.1 = lt.1) then (dictSet acc2.1 lt.1 lt.2, acc2.2 ++ [lt.1])
            else acc2) (acc.1, [])
        (inner.1, acc.2 ++ (if inner.2 = [] then []
          else [⟨entry.1, entry.2.title, inner.2⟩]))) acc =
      (la_store rmap (fm.flatMap (fun e => e.2.links_with_text)) acc.1,
       acc.2 ++ fm.filterMap (fun entry =>
        if (entry.2.links_with_text.filter
            (fun lt => rmap.any (fun p => p.1 = lt.1))).map Prod.fst = [] then none
        else some ⟨entry.1, entry.2.title,
          (entry.2.links_with_text.filter
            (fun lt => rmap.any (fun p => p.1 = lt.1))).map Prod.fst⟩)) := by
  intro fm
  induction fm with
  | nil =>
    intro acc
    simp [la_store]
  | cons e es ih =>
    intro acc
    simp only [List.foldl_cons]
    rw [ih]
    dsimp only
    rw [la_inner_store rmap e.2.links_with_text acc.1 [],
      la_inner_ptrs rmap e.2.links_with_text acc.1 []]
    simp only [List.nil_append]
    rw [show ((e :: es).flatMap fun e => e.2.links_with_text) =
        e.2.links_with_text ++ es.flatMap (fun e => e.2.links_with_text) from by simp]
    rw [show la_store rmap
          (e.2.links_with_text ++ es.flatMap fun e => e.2.links_with_text) acc.1 =
        la_store rmap (es.flatMap fun e => e.2.links_with_text)
          (la_store rmap e.2.links_with_text acc.1) from by
      unfold la_store
      rw [List.foldl_append]]
    rw [List.filterMap_cons]
    by_cases hp : (e.2.links_with_text.filter
        (fun lt => rmap.any (fun p => p.1 = lt.1))).map Prod.fst = []
    · simp [hp]
    · simp [hp]

theorem la_loop_eq (fmap : List (String × LAFileInfo)) (rmap : List (String × LinkResult)) :
    la_loop fmap rmap =
      (la_store rmap (fmap.flatMap (fun e => e.2.links_with_text)) [],
       fmap.filterMap (fun entry =>
        if (entry.2.links_with_text.filter
            (fun lt => rmap.any (fun p => p.1 = lt.1))).map Prod.fst = [] then none
        else some ⟨entry.1, entry.2.title,
          (entry.2.links_with_text.filter
            (fun lt => rmap.any (fun p => p.1 = lt.1))).map Prod.fst⟩)) := by
  unfold la_loop
  rw [la_loop_fold]
  simp

theorem la_store_get (rmap : List (String × LinkResult)) (os : List (String × String)) :
    ∀ (st : List (String × String)) (l : String),
      dictGet (la_store rmap os st) l =
        if rmap.any (fun p => p.1 = l) = true then
          (((os.filter (fun lt => lt.1 = l)).getLast?).map Prod.snd).or (dictGet st l)
        else dictGet st l := by
  unfold la_store
  induction os with
  | nil =>
    intro st l
    by_cases h : rmap.any (fun p => p.1 = l) = true <;> simp [h]
  | cons lt os ih =>
    intro st l
    simp only [List.foldl_cons]
    by_cases hlt : rmap.any (fun p => p.1 = lt.1) = true
    · rw [if_pos hlt, ih]
      by_cases hl : rmap.any (fun p => p.1 = l) = true
      · rw [if_pos hl, if_pos hl]
        by_cases heq : lt.1 = l
        · rw [List.filter_cons, if_pos (by simp [heq])]
          rcases hxs : os.filter (fun lt2 => lt2.1 = l) with _ | ⟨x, xs⟩
          · rw [hxs]
            have hget : dictGet (dictSet st lt.1 lt.2) l = some lt.2 := by
              rw [dictGet_dictSet, if_pos heq.symm]
            simp [hget]
          · rw [hxs, List.getLast?_cons_cons]
            rcases hlast : (x :: xs).getLast? with _ | y
            · exact absurd hlast (by simp)
            · simp
        · rw [List.filter_cons, if_neg (by simp [heq])]
          have hne : ¬ l = lt.1 := fun hh => heq hh.symm
          rw [dictGet_dictSet, if_neg hne]
      · rw [if_neg hl, if_neg hl]
        have hne : ¬ l = lt.1 := fun hh => hl (by rw [hh]; exact hlt)
        rw [dictGet_dictSet, if_neg hne]
    · rw [if_neg hlt, ih]
      by_cases hl : rmap.any (fun p => p.1 = l) = true
      · rw [if_pos hl, if_pos hl]
        have heq : ¬ lt.1 = l := fun hh => hlt (by rw [hh]; exact hl)
        rw [List.filter_cons, if_neg (by simp [heq])]
      · rw [if_neg hl, if_neg hl]

theorem dictGet_isSome_of_any {α : Type} (m : List (String × α)) (l : String)
    (h : m.any (fun p => p.1 = l) = true) : ∃ v, dictGet m l = some v := by
  unfold dictGet
  rcases hf : m.find? (fun p => p.1 = l) with _ | p
  · exfalso
    rw [List.find?_eq_none] at hf
    rcases (any_key_iff m l).mp h with ⟨p, hp, hpk⟩
    exact hf p hp (by simp [hpk])
  · exact ⟨p.2, by rw [hf]; rfl⟩

theorem dictGet_result_map_link (results : List LinkResult) (selected : List String)
    (l : String) (q : LinkResult)
    (h : dictGet (result_map results selected) l = some q) : q.link = l := by
  unfold dictGet at h
  rcases hf : (result_map results selected).find? (fun p => p.1 = l) with _ | p
  · rw [hf] at h
    simp at h
  · rw [hf] at h
    simp at h
    have hp1 : p.1 = l := by simpa using List.find?_some hf
    have hmem := List.mem_of_find?_eq_some hf
    have hinv := result_map_entry results selected p hmem
    rw [← h, hinv, hp1]

theorem dictGet_mem {α : Type} (m : List (String × α)) (l : String) (v : α)
    (h : dictGet m l = some v) : ∃ p ∈ m, p.1 = l ∧ p.2 = v := by
  unfold dictGet at h
  rcases hf : m.find? (fun p => p.1 = l) with _ | p
  · rw [hf] at h
    simp at h
  · rw [hf] at h
    simp at h
    exact ⟨p, List.mem_of_find?_eq_some hf, by simpa using List.find?_some hf, h⟩

theorem la_details_row (fmap : List (String × LAFileInfo)) (R : List (String × LinkResult))
    (fd : LAFileDetail) (row : LARow)
    (hent : ∀ p ∈ R, p.2.link = p.1)
    (hfd : fd ∈ (la_loop fmap R).2.map (la_material R (la_loop fmap R).1))
    (hrow : row ∈ fd.links) :
    R.any (fun p => p.1 = row.link) = true ∧
    (∃ entry ∈ fmap, ∃ lt ∈ entry.2.links_with_text, lt.1 = row.link) ∧
    some row.text =
      (((fmap.flatMap (fun e => e.2.links_with_text)).filter
        (fun lt => lt.1 = row.link)).getLast?).map Prod.snd ∧
    (∃ q, dictGet R row.link = some q ∧ row.status_code = q.status_code ∧
      row.status_category = q.status_category) := by
  rw [la_loop_eq] at hfd
  dsimp only at hfd
  rcases List.mem_map.mp hfd with ⟨p, hp, hfd2⟩
  rcases List.mem_filterMap.mp hp with ⟨entry, hentry, hfe⟩
  by_cases hptr : (entry.2.links_with_text.filter
      (fun lt => R.any (fun q => q.1 = lt.1))).map Prod.fst = []
  · rw [if_pos hptr] at hfe
    exact absurd hfe (by simp)
  · rw [if_neg hptr] at hfe
    have hpe : (⟨entry.1, entry.2.title,
        (entry.2.links_with_text.filter
          (fun lt => R.any (fun q => q.1 = lt.1))).map Prod.fst⟩ : LAPtrFile) = p := by
      simpa using hfe
    subst hfd2
    subst hpe
    unfold la_material at hrow
    dsimp only at hrow
    rcases List.mem_map.mp hrow with ⟨l, hl, hrow2⟩
    rcases List.mem_map.mp hl with ⟨lt, hlt, hlfst⟩
    rcases List.mem_filter.mp hlt with ⟨hltmem, hltany⟩
    have hany : R.any (fun q => q.1 = l) = true := by
      rw [← hlfst]
      simpa using hltany
    rcases dictGet_isSome_of_any R l hany with ⟨q, hq⟩
    rcases dictGet_mem R l q hq with ⟨pq, hpqmem, hpq1, hpq2⟩
    have hqlink : q.link = l := by
      rw [← hpq2, hent pq hpqmem, hpq1]
    subst hrow2
    dsimp only
    rw [hq]
    simp only [Option.getD_some]
    simp only [hqlink]
    refine ⟨hany, ⟨entry, hentry, lt, hltmem, hlfst⟩, ?_, q, hq, rfl, rfl⟩
    -- the text field reads the final store
    have hstore := la_store_get R (fmap.flatMap (fun e => e.2.links_with_text)) [] l
    rw [if_pos hany] at hstore
    have hmem2 : lt ∈ fmap.flatMap (fun e => e.2.links_with_text) :=
      List.mem_flatMap.mpr ⟨entry, hentry, hltmem⟩
    have hne : (fmap.flatMap (fun e => e.2.links_with_text)).filter
        (fun lt2 => lt2.1 = l) ≠ [] :=
      List.ne_nil_of_mem (List.mem_filter.mpr ⟨hmem2, by simp [hlfst]⟩)
    rcases hy : ((fmap.flatMap (fun e => e.2.links_with_text)).filter
        (fun lt2 => lt2.1 = l)).getLast? with _ | y
    · exact absurd (List.getLast?_eq_none_iff.mp hy) hne
    · rw [hy] at hstore
      rw [hy]
      have hstore2 : dictGet (la_store R (fmap.flatMap (fun e => e.2.links_with_text)) []) l
          = some y.2 := by
        rw [hstore]
        rfl
      rw [hstore2]
      rfl

/-- C9: in `run_link_audit` every detail row dereferences the single
shared result record of its URL, whose mutable `text` field was last
written by the final occurrence of that URL processed by the detail
loop; hence each row carries the anchor text of the last occurrence of
its URL, not the text of its own occurrence. -/
theorem shared_record_last_anchor (files : List LAFile) (statuses : List String)
    (probe : String → ProbeResult) (fd : LAFileDetail) (row : LARow)
    (hfd : fd ∈ (run_link_audit files statuses probe).details)
    (hrow : row ∈ fd.links) :
    some row.text =
      ((((la_build files).2.flatMap (fun e => e.2.links_with_text)).filter
        (fun lt => lt.1 = row.link)).getLast?).map Prod.snd := by
  unfold run_link_audit at hfd
  dsimp only at hfd
  by_cases hb : (la_build files).1 = []
  · rw [if_pos hb] at hfd
    exact absurd hfd (List.not_mem_nil fd)
  · rw [if_neg hb] at hfd
    unfold la_from_results at hfd
    dsimp only at hfd
    exact (la_details_row (la_build files).2 _ fd row
      (result_map_entry _ _) hfd hrow).2.2.1

/-- Witness for C9: `http://x` occurs twice (texts `t1` then `t2`);
the surviving row text is `t2`, the text of the last occurrence. -/
theorem shared_record_last_anchor_witness :
    some (⟨"http://x", some 200, "2xx", "t2"⟩ : LARow).text =
      ((((la_build [⟨"a.md", "T", [("http://x", "t1"), ("http://x", "t2")]⟩]).2.flatMap
          (fun e => e.2.links_with_text)).filter
        (fun lt => lt.1 = (⟨"http://x", some 200, "2xx", "t2"⟩ : LARow).link)).getLast?).map
        Prod.snd :=
  shared_record_last_anchor [⟨"a.md", "T", [("http://x", "t1"), ("http://x", "t2")]⟩] ["2xx"]
    (fun _ => .response 200)
    ⟨"a.md", "T", [⟨"http://x", some 200, "2xx", "t2"⟩, ⟨"http://x", some 200, "2xx", "t2"⟩]⟩
    ⟨"http://x", some 200, "2xx", "t2"⟩ (by decide) (by decide)

theorem contains_congr_of_mem_iff {l1 l2 : List String} (a : String)
    (h : a ∈ l1 ↔ a ∈ l2) : l1.contains a = l2.contains a := by
  by_cases h1 : a ∈ l1
  · have e1 : l1.contains a = true := List.elem_iff.mpr h1
    have e2 : l2.contains a = true := List.elem_iff.mpr (h.mp h1)
    rw [e1, e2]
  · have e1 : l1.contains a = false := by
      rw [← Bool.not_eq_true]
      exact fun hh => h1 (List.elem_iff.mp hh)
    have e2 : l2.contains a = false := by
      rw [← Bool.not_eq_true]
      exact fun hh => h1 (h.mpr (List.elem_iff.mp hh))
    rw [e1, e2]

theorem la_selected_congr (fmap : List (String × LAFileInfo)) (results : List LinkResult)
    (sel1 sel2 : List String)
    (h : ∀ r ∈ results, sel1.contains r.status_category = sel2.contains r.status_category) :
    la_from_results fmap results sel1 = la_from_results fmap results sel2 := by
  unfold la_from_results
  have hrm : result_map results sel1 = result_map results sel2 := by
    unfold result_map
    rw [List.filter_congr h]
  rw [hrm]

theorem check_category_ne_other (links : List String) (probe : String → ProbeResult) :
    ∀ r ∈ check_links_threaded links probe, r.status_category ≠ "Other" := by
  intro r hr
  rcases List.mem_map.mp hr with ⟨l, _, rfl⟩
  rcases h : probe l with s | _ | _ | _
  · simpa [check_link, h] using nxx_ne (s / 100) "Other" (by decide)
  · simp only [check_link, h]
    decide
  · simp only [check_link, h]
    decide
  · simp only [check_link, h]
    decide

/-- C5 counterexample: `run_http_audit` performs no Other-expansion at
all, so on an input whose only probe times out, the filter `["Other"]`
yields an empty details list while the expanded filter list from the
claim yields a nonempty one; the two reports differ. -/
theorem other_expansion_counterexample :
    run_http_audit [("http://t", ⟨"f.md", "T", "a"⟩)] ["Other"] (fun _ => .timeout) ≠
      run_http_audit [("http://t", ⟨"f.md", "T", "a"⟩)]
        ["Timeout", "ConnectionError", "InvalidURL"] (fun _ => .timeout) := by
  decide

/-- C5 (amended): only `run_link_audit` expands `"Other"`, and the
expansion adds the code's category spellings: a selection of
`["Other"]` is equivalent to `["Timeout", "Connection Error",
"Invalid URL"]`, and any selection containing `"Other"` behaves as that
selection extended with those three categories.  `run_http_audit` uses
its filter literally, with no expansion (see the counterexample). -/
theorem other_expansion_link_audit (files : List LAFile) (probe : String → ProbeResult) :
    (run_link_audit files ["Other"] probe =
      run_link_audit files ["Timeout", "Connection Error", "Invalid URL"] probe) ∧
    (∀ statuses : List String, "Other" ∈ statuses →
      run_link_audit files statuses probe =
        run_link_audit files (statuses ++ ["Timeout", "Connection Error", "Invalid URL"])
          probe) := by
  constructor
  · unfold run_link_audit
    dsimp only
    by_cases hb : (la_build files).1 = []
    · rw [if_pos hb, if_pos hb]
    · rw [if_neg hb, if_neg hb]
      apply la_selected_congr
      intro r hr
      have hno := check_category_ne_other (la_build files).1 probe r hr
      have he1 : expandStatuses ["Other"] =
          "Other" :: ["Timeout", "Connection Error", "Invalid URL"] := rfl
      have he2 : expandStatuses ["Timeout", "Connection Error", "Invalid URL"] =
          ["Timeout", "Connection Error", "Invalid URL"] := rfl
      rw [he1, he2, List.contains_cons, beq_eq_false_iff_ne.mpr hno]
      simp
  · intro statuses hmem
    unfold run_link_audit
    dsimp only
    by_cases hb : (la_build files).1 = []
    · rw [if_pos hb, if_pos hb]
    · rw [if_neg hb, if_neg hb]
      apply la_selected_congr
      intro r _
      have hc1 : statuses.contains "Other" = true := List.elem_iff.mpr hmem
      have hc2 : (statuses ++ ["Timeout", "Connection Error", "Invalid URL"]).contains
          "Other" = true := List.elem_iff.mpr (List.mem_append.mpr (Or.inl hmem))
      unfold expandStatuses
      rw [if_pos hc1, if_pos hc2]
      apply contains_congr_of_mem_iff
      simp only [List.mem_append]
      tauto

/-- Witness for C5's amended claim at a concrete connection failure. -/
theorem other_expansion_link_audit_witness :
    run_link_audit [⟨"a.md", "T", [("http://x", "t")]⟩] ["Other"] (fun _ => .connectionError) =
      run_link_audit [⟨"a.md", "T", [("http://x", "t")]⟩]
        (["Other"] ++ ["Timeout", "Connection Error", "Invalid URL"])
        (fun _ => .connectionError) :=
  (other_expansion_link_audit [⟨"a.md", "T", [("http://x", "t")]⟩]
    (fun _ => .connectionError)).2 ["Other"] (by decide)

theorem any_congr_of_perm {α : Type} {l1 l2 : List α} (h : l1.Perm l2) (p : α → Bool) :
    l1.any p = l2.any p := by
  by_cases hx : ∃ x ∈ l1, p x = true
  · rcases hx with ⟨x, hx1, hx2⟩
    rw [List.any_eq_true.mpr ⟨x, hx1, hx2⟩, List.any_eq_true.mpr ⟨x, h.mem_iff.mp hx1, hx2⟩]
  · have e1 : l1.any p = false := by
      rw [List.any_eq_false]
      intro x hxm hc
      exact hx ⟨x, hxm, hc⟩
    have e2 : l2.any p = false := by
      rw [List.any_eq_false]
      intro x hxm hc
      exact hx ⟨x, h.mem_iff.mpr hxm, hc⟩
    rw [e1, e2]

theorem find?_link_perm {l1 l2 : List LinkResult} (hp : l1.Perm l2)
    (hnd : (l1.map (fun r => r.link)).Nodup) (k : String) :
    l1.find? (fun r => r.link = k) = l2.find? (fun r => r.link = k) := by
  rcases hf : l1.find? (fun r => r.link = k) with _ | r
  · rcases hg : l2.find? (fun r => r.link = k) with _ | r2
    · rw [hf, hg]
    · exfalso
      have hr2 := List.mem_of_find?_eq_some hg
      have hpk : r2.link = k := by simpa using List.find?_some hg
      rw [List.find?_eq_none] at hf
      exact hf r2 (hp.mem_iff.mpr hr2) (by simp [hpk])
  · have hr := List.mem_of_find?_eq_some hf
    have hrk : r.link = k := by simpa using List.find?_some hf
    rcases hg : l2.find? (fun r => r.link = k) with _ | r2
    · exfalso
      rw [List.find?_eq_none] at hg
      exact hg r (hp.mem_iff.mp hr) (by simp [hrk])
    · have hr2 := List.mem_of_find?_eq_some hg
      have hr2k : r2.link = k := by simpa using List.find?_some hg
      have heq : r2 = r :=
        List.inj_on_of_nodup_map hnd (hp.mem_iff.mpr hr2) hr (by rw [hr2k, hrk])
      rw [hf, hg, heq]

theorem dictGet_result_map_perm (results1 results2 : List LinkResult) (selected : List String)
    (hperm : results1.Perm results2)
    (hnd : (results1.map (fun r => r.link)).Nodup) (l : String) :
    dictGet (result_map results1 selected) l = dictGet (result_map results2 selected) l := by
  have hnd2 : (results2.map (fun r => r.link)).Nodup :=
    ((hperm.map (fun r => r.link)).nodup_iff).mp hnd
  rw [result_map_eq _ _ hnd, result_map_eq _ _ hnd2]
  unfold dictGet
  rw [List.find?_map, List.find?_map]
  have hpf := hperm.filter (fun r => selected.contains r.status_category)
  have hndf : ((results1.filter (fun r => selected.contains r.status_category)).map
      (fun r => r.link)).Nodup :=
    hnd.sublist ((List.filter_sublist results1).map _)
  have hcomp : ((fun p : String × LinkResult => decide (p.1 = l)) ∘ fun r => (r.link, r)) =
      (fun r : LinkResult => decide (r.link = l)) := rfl
  rw [hcomp, find?_link_perm hpf hndf l]

theorem result_map_any_perm (results1 results2 : List LinkResult) (selected : List String)
    (hperm : results1.Perm results2) (l : String) :
    (result_map results1 selected).any (fun p => p.1 = l) =
      (result_map results2 selected).any (fun p => p.1 = l) := by
  unfold result_map
  have h1 := any_congr_of_perm
    (hperm.filter (fun r => selected.contains r.status_category)) (fun r => decide (r.link = l))
  -- the dict keys are exactly the filtered links
  have hkeys : ∀ (rs : List LinkResult),
      ((rs.filter (fun r => selected.contains r.status_category)).foldl
        (fun m r => dictSet m r.link r) []).any (fun p => p.1 = l) =
      (rs.filter (fun r => selected.contains r.status_category)).any
        (fun r => decide (r.link = l)) := by
    intro rs
    generalize (rs.filter (fun r => selected.contains r.status_category)) = frs
    suffices hgen : ∀ (frs : List LinkResult) (acc : List (String × LinkResult)),
        ((frs.foldl (fun m r => dictSet m r.link r) acc).any (fun p => p.1 = l)) =
        (acc.any (fun p => p.1 = l) || frs.any (fun r => decide (r.link = l))) by
      simpa using hgen frs []
    intro frs
    induction frs with
    | nil => intro acc; simp
    | cons r rs2 ih =>
      intro acc
      simp only [List.foldl_cons, List.any_cons]
      rw [ih]
      have hset : (dictSet acc r.link r).any (fun p => p.1 = l) =
          (acc.any (fun p => p.1 = l) || decide (r.link = l)) := by
        unfold dictSet
        by_cases ha : acc.any (fun p => p.1 = r.link) = true
        · rw [if_pos ha]
          by_cases hl2 : r.link = l
          · have h2 : acc.any (fun p => p.1 = l) = true := by
              rw [← hl2]
              exact ha
            rw [List.any_map]
            have hcomp2 : ((fun p : String × LinkResult => decide (p.1 = l)) ∘
                (fun p => if p.1 = r.link then (r.link, r) else p)) =
                (fun p : String × LinkResult => decide (p.1 = l)) := by
              funext p
              by_cases hpr : p.1 = r.link <;> simp [hpr]
            rw [hcomp2, h2]
            simp [hl2]
          · rw [List.any_map]
            have hcomp2 : ((fun p : String × LinkResult => decide (p.1 = l)) ∘
                (fun p => if p.1 = r.link then (r.link, r) else p)) =
                (fun p : String × LinkResult => decide (p.1 = l)) := by
              funext p
              by_cases hpr : p.1 = r.link <;> simp [hpr]
            rw [hcomp2]
            simp [hl2]
        · rw [if_neg ha, List.any_append]
          simp
      rw [hset]
      cases acc.any (fun p => p.1 = l) <;> cases decide (r.link = l) <;>
        cases rs2.any (fun r => decide (r.link = l)) <;> simp
  rw [hkeys results1, hkeys results2]
  exact h1

theorem la_material_congr (R1 R2 : List (String × LinkResult))
    (st1 st2 : List (String × String))
    (hget : ∀ l, dictGet R1 l = dictGet R2 l) (hst : st1 = st2) :
    la_material R1 st1 = la_material R2 st2 := by
  subst hst
  funext p
  unfold la_material
  have hmap : p.links.map (fun l =>
      let r := (dictGet R1 l).getD { link := l, status_code := none, status_category := "" }
      (⟨r.link, r.status_code, r.status_category, (dictGet st1 l).getD ""⟩ : LARow)) =
      p.links.map (fun l =>
        let r := (dictGet R2 l).getD { link := l, status_code := none, status_category := "" }
        (⟨r.link, r.status_code, r.status_category, (dictGet st1 l).getD ""⟩ : LARow)) := by
    apply List.map_congr_left
    intro l _
    simp only [hget l]
  rw [hmap]

/-- C6 counterexample: in `run_http_audit` the detail rows follow the
order in which probe outcomes were recorded; swapping two recorded
outcomes changes the details sequence, so details are not grouped by
source occurrence order there. -/
theorem details_order_counterexample :
    (([check_link "http://a" (fun _ => .response 200),
       check_link "http://b" (fun _ => .response 200)] : List LinkResult).Perm
      [check_link "http://b" (fun _ => .response 200),
       check_link "http://a" (fun _ => .response 200)]) ∧
    detailed_results
        (buildLinkData [("http://a", ⟨"d.md", "T", "x"⟩), ("http://b", ⟨"d.md", "T", "y"⟩)]).2
        [check_link "http://a" (fun _ => .response 200),
         check_link "http://b" (fun _ => .response 200)] ["*"] ≠
      detailed_results
        (buildLinkData [("http://a", ⟨"d.md", "T", "x"⟩), ("http://b", ⟨"d.md", "T", "y"⟩)]).2
        [check_link "http://b" (fun _ => .response 200),
         check_link "http://a" (fun _ => .response 200)] ["*"] :=
  ⟨List.Perm.swap _ _ _, by decide⟩

/-- C6 (amended): only `run_link_audit` orders details by the source
occurrence order of the file map; its details (and `totalChecked`) are
invariant under any permutation of the recorded probe outcomes, while
`run_http_audit`'s details follow recording order (see the
counterexample). -/
theorem la_details_completion_order_independent (fmap : List (String × LAFileInfo))
    (results1 results2 : List LinkResult) (selected : List String)
    (hperm : results1.Perm results2)
    (hnd : (results1.map (fun r => r.link)).Nodup) :
    (la_from_results fmap results1 selected).details =
      (la_from_results fmap results2 selected).details ∧
    (la_from_results fmap results1 selected).total_links_checked =
      (la_from_results fmap results2 selected).total_links_checked := by
  constructor
  · unfold la_from_results
    dsimp only
    rw [la_loop_eq, la_loop_eq]
    dsimp only
    have hany : ∀ l : String, (result_map results1 selected).any (fun p => p.1 = l) =
        (result_map results2 selected).any (fun p => p.1 = l) :=
      fun l => result_map_any_perm results1 results2 selected hperm l
    have hpred : (fun lt : String × String =>
        (result_map results1 selected).any (fun p => p.1 = lt.1)) =
        (fun lt : String × String =>
          (result_map results2 selected).any (fun p => p.1 = lt.1)) := by
      funext lt
      exact hany lt.1
    have hstore : la_store (result_map results1 selected)
        (fmap.flatMap (fun e => e.2.links_with_text)) [] =
        la_store (result_map results2 selected)
          (fmap.flatMap (fun e => e.2.links_with_text)) [] := by
      unfold la_store
      have hf : (fun (st : List (String × String)) (lt : String × String) =>
          if (result_map results1 selected).any (fun p => p.1 = lt.1) then
            dictSet st lt.1 lt.2 else st) =
          (fun (st : List (String × String)) (lt : String × String) =>
            if (result_map results2 selected).any (fun p => p.1 = lt.1) then
              dictSet st lt.1 lt.2 else st) := by
        funext st lt
        rw [hany lt.1]
      rw [hf]
    rw [hpred, hstore,
      la_material_congr (result_map results1 selected) (result_map results2 selected) _ _
        (dictGet_result_map_perm results1 results2 selected hperm hnd) rfl]
  · unfold la_from_results
    dsimp only
    exact hperm.length_eq

/-- Witness for C6's amended claim: two outcomes recorded in either
order produce the same link-audit details. -/
theorem la_details_completion_order_independent_witness :
    (la_from_results [("a.md", ⟨"T", [("http://a", "x"), ("http://b", "y")]⟩)]
      [⟨"http://a", some 200, "2xx"⟩, ⟨"http://b", none, "Timeout"⟩]
      ["2xx", "Timeout"]).details =
    (la_from_results [("a.md", ⟨"T", [("http://a", "x"), ("http://b", "y")]⟩)]
      [⟨"http://b", none, "Timeout"⟩, ⟨"http://a", some 200, "2xx"⟩]
      ["2xx", "Timeout"]).details ∧
    (la_from_results [("a.md", ⟨"T", [("http://a", "x"), ("http://b", "y")]⟩)]
      [⟨"http://a", some 200, "2xx"⟩, ⟨"http://b", none, "Timeout"⟩]
      ["2xx", "Timeout"]).total_links_checked =
    (la_from_results [("a.md", ⟨"T", [("http://a", "x"), ("http://b", "y")]⟩)]
      [⟨"http://b", none, "Timeout"⟩, ⟨"http://a", some 200, "2xx"⟩]
      ["2xx", "Timeout"]).total_links_checked :=
  la_details_completion_order_independent
    [("a.md", ⟨"T", [("http://a", "x"), ("http://b", "y")]⟩)]
    [⟨"http://a", some 200, "2xx"⟩, ⟨"http://b", none, "Timeout"⟩]
    [⟨"http://b", none, "Timeout"⟩, ⟨"http://a", some 200, "2xx"⟩]
    ["2xx", "Timeout"] (List.Perm.swap _ _ _) (by decide)

theorem http_row_membership (m : List (String × List Occurrence)) (results : List LinkResult)
    (codes : List String) (row : DetailRow) :
    row ∈ detailed_results m results codes ↔
      ∃ res ∈ results, rowPasses codes res = true ∧
        ∃ s ∈ lookupOccs m res.link, row = mkRow res s := by
  unfold detailed_results
  rw [List.mem_flatMap]
  constructor
  · rintro ⟨res, hres, hrow⟩
    by_cases hp : rowPasses codes res = true
    · rw [if_pos hp] at hrow
      rcases List.mem_map.mp hrow with ⟨s, hs, rfl⟩
      exact ⟨res, hres, hp, s, hs, rfl⟩
    · rw [if_neg hp] at hrow
      exact absurd hrow (List.not_mem_nil row)
  · rintro ⟨res, hres, hp, s, hs, rfl⟩
    refine ⟨res, hres, ?_⟩
    rw [if_pos hp]
    exact List.mem_map_of_mem _ hs

theorem http_wildcard_rows (m : List (String × List Occurrence)) (results : List LinkResult) :
    (detailed_results m results ["*"]).length =
      (results.map (fun res => (lookupOccs m res.link).length)).sum := by
  unfold detailed_results
  rw [List.length_flatMap]
  congr 1
  apply List.map_congr_left
  intro res _
  simp only [Function.comp]
  rw [if_pos (by simp [rowPasses])]
  rw [List.length_map]

theorem result_map_any_iff (results : List LinkResult) (selected : List String)
    (res : LinkResult) (hres : res ∈ results)
    (hnd : (results.map (fun r => r.link)).Nodup) :
    ((result_map results selected).any (fun p => p.1 = res.link) = true) ↔
      selected.contains res.status_category = true := by
  rw [result_map_eq _ _ hnd]
  constructor
  · intro h
    rcases List.any_eq_true.mp h with ⟨pr, hpr, hprl⟩
    rcases List.mem_map.mp hpr with ⟨r, hr, rfl⟩
    rcases List.mem_filter.mp hr with ⟨hrmem, hrsel⟩
    have hrlink : r.link = res.link := by simpa using hprl
    have heq : r = res := List.inj_on_of_nodup_map hnd hrmem hres hrlink
    rw [← heq]
    exact hrsel
  · intro h
    apply List.any_eq_true.mpr
    exact ⟨(res.link, res), List.mem_map_of_mem _ (List.mem_filter.mpr ⟨hres, h⟩), by simp⟩

theorem la_row_membership (files : List LAFile) (statuses : List String)
    (probe : String → ProbeResult) (res : LinkResult)
    (hres : res ∈ check_links_threaded (la_build files).1 probe) :
    (∃ fd ∈ (run_link_audit files statuses probe).details, ∃ row ∈ fd.links,
        row.link = res.link) ↔
      ((expandStatuses statuses).contains res.status_category = true ∧
        ∃ e ∈ (la_build files).2, ∃ lt ∈ e.2.links_with_text, lt.1 = res.link) := by
  have hne : ¬ (la_build files).1 = [] := by
    intro h
    rw [h] at hres
    exact absurd hres (List.not_mem_nil res)
  have hnd := results_links_nodup (la_build files).1 probe
  unfold run_link_audit
  dsimp only
  rw [if_neg hne]
  unfold la_from_results
  dsimp only
  constructor
  · rintro ⟨fd, hfd, row, hrow, hlink⟩
    have hchar := la_details_row (la_build files).2 _ fd row
      (result_map_entry _ _) hfd hrow
    rw [hlink] at hchar
    refine ⟨?_, hchar.2.1⟩
    exact (result_map_any_iff _ _ res hres hnd).mp hchar.1
  · rintro ⟨hsel, e, he, lt, hlt, hlt1⟩
    have hany : (result_map (check_links_threaded (la_build files).1 probe)
        (expandStatuses statuses)).any (fun p => p.1 = res.link) = true :=
      (result_map_any_iff _ _ res hres hnd).mpr hsel
    -- the pointer list of file e contains res.link
    have hlmem : res.link ∈ (e.2.links_with_text.filter
        (fun lt2 => (result_map (check_links_threaded (la_build files).1 probe)
          (expandStatuses statuses)).any (fun p => p.1 = lt2.1))).map Prod.fst := by
      apply List.mem_map.mpr
      refine ⟨lt, List.mem_filter.mpr ⟨hlt, ?_⟩, hlt1⟩
      rw [hlt1]
      simpa using hany
    have hptrne : ¬ (e.2.links_with_text.filter
        (fun lt2 => (result_map (check_links_threaded (la_build files).1 probe)
          (expandStatuses statuses)).any (fun p => p.1 = lt2.1))).map Prod.fst = [] :=
      List.ne_nil_of_mem hlmem
    rw [la_loop_eq]
    dsimp only
    refine ⟨la_material (result_map (check_links_threaded (la_build files).1 probe)
        (expandStatuses statuses))
        (la_store (result_map (check_links_threaded (la_build files).1 probe)
          (expandStatuses statuses))
          ((la_build files).2.flatMap (fun e2 => e2.2.links_with_text)) [])
        ⟨e.1, e.2.title, (e.2.links_with_text.filter
          (fun lt2 => (result_map (check_links_threaded (la_build files).1 probe)
            (expandStatuses statuses)).any (fun p => p.1 = lt2.1))).map Prod.fst⟩, ?_, ?_⟩
    · apply List.mem_map_of_mem
      apply List.mem_filterMap.mpr
      exact ⟨e, he, by rw [if_neg hptrne]⟩
    · -- the row for res.link
      rcases dictGet_isSome_of_any _ res.link hany with ⟨q, hq⟩
      rcases dictGet_mem _ res.link q hq with ⟨pq, hpqmem, hpq1, hpq2⟩
      have hqlink : q.link = res.link := by
        rw [← hpq2, result_map_entry _ _ pq hpqmem, hpq1]
      unfold la_material
      dsimp only
      refine ⟨_, List.mem_map_of_mem _ hlmem, ?_⟩
      rw [hq]
      simp only [Option.getD_some]
      exact hqlink

/-- C2 counterexample: in `run_link_audit` the wildcard has no special
meaning.  One URL is checked (one completed outcome with category
`"2xx"` and one occurrence), the filter is `["*"]`, yet `details` is
empty — the claimed iff fails on its `"*" ∈ filter` disjunct. -/
theorem wildcard_counterexample :
    ("*" ∈ (["*"] : List String)) ∧
    (run_link_audit [⟨"a.md", "T", [("http://x", "t")]⟩] ["*"]
      (fun _ => .response 200)).total_links_checked = 1 ∧
    (run_link_audit [⟨"a.md", "T", [("http://x", "t")]⟩] ["*"]
      (fun _ => .response 200)).details = [] := by
  decide

/-- C2 (amended): the claimed filter semantics holds for
`run_http_audit` only: a row appears in its details iff its outcome
passes `rowPasses` (category, status-code string, or "*" membership),
and the `["*"]` filter yields exactly one row per (occurrence, outcome)
pair.  In `run_link_audit` a row for a completed outcome appears iff the
outcome's category is a member of the Other-expanded selection and its
URL has at least one occurrence; wildcard and status-code entries have
no special meaning there. -/
theorem filter_membership_semantics :
    (∀ (m : List (String × List Occurrence)) (results : List LinkResult)
        (codes : List String) (row : DetailRow),
      row ∈ detailed_results m results codes ↔
        ∃ res ∈ results, rowPasses codes res = true ∧
          ∃ s ∈ lookupOccs m res.link, row = mkRow res s) ∧
    (∀ (m : List (String × List Occurrence)) (results : List LinkResult),
      (detailed_results m results ["*"]).length =
        (results.map (fun res => (lookupOccs m res.link).length)).sum) ∧
    (∀ (files : List LAFile) (statuses : List String) (probe : String → ProbeResult)
        (res : LinkResult),
      res ∈ check_links_threaded (la_build files).1 probe →
      ((∃ fd ∈ (run_link_audit files statuses probe).details, ∃ row ∈ fd.links,
          row.link = res.link) ↔
        ((expandStatuses statuses).contains res.status_category = true ∧
          ∃ e ∈ (la_build files).2, ∃ lt ∈ e.2.links_with_text, lt.1 = res.link))) :=
  ⟨http_row_membership, http_wildcard_rows, la_row_membership⟩

/-- Witness for C2's amended claim: a checked `2xx` outcome with a
selected category has a detail row in the link audit. -/
theorem filter_membership_semantics_witness :
    (∃ fd ∈ (run_link_audit [⟨"a.md", "T", [("http://x", "t")]⟩] ["2xx"]
        (fun _ => .response 200)).details, ∃ row ∈ fd.links,
      row.link = (check_link "http://x" (fun _ => .response 200)).link) ↔
      ((expandStatuses ["2xx"]).contains
          (check_link "http://x" (fun _ => .response 200)).status_category = true ∧
        ∃ e ∈ (la_build [⟨"a.md", "T", [("http://x", "t")]⟩]).2,
          ∃ lt ∈ e.2.links_with_text,
            lt.1 = (check_link "http://x" (fun _ => .response 200)).link) :=
  filter_membership_semantics.2.2 [⟨"a.md", "T", [("http://x", "t")]⟩] ["2xx"]
    (fun _ => .response 200) (check_link "http://x" (fun _ => .response 200)) (by decide)

theorem splitAtCloseParen_append (body tail : List Char) (h : ')' ∉ body) :
    splitAtCloseParen (body ++ ')' :: tail) = some (body, tail) := by
  induction body with
  | nil => simp [splitAtCloseParen]
  | cons c cs ih =>
    have hc : ¬ c = ')' := by
      intro hh
      exact h (by rw [hh]; exact List.mem_cons_self ')' cs)
    simp only [List.cons_append]
    unfold splitAtCloseParen
    rw [if_neg hc, ih (fun hh => h (List.mem_cons_of_mem c hh))]

theorem matchUrl_https (body tail : List Char) (hb : body ≠ []) (hp : ')' ∉ body) :
    matchUrl ("https://".data ++ body ++ ')' :: tail) =
      some ("https://".data ++ body, tail) := by
  unfold matchUrl
  have hlen : ("https://".data).length = 8 := by decide
  rw [List.append_assoc]
  have htake : ("https://".data ++ (body ++ ')' :: tail)).take 8 = "https://".data := by
    rw [← hlen]
    exact List.take_left _ _
  have hdrop : ("https://".data ++ (body ++ ')' :: tail)).drop 8 = body ++ ')' :: tail := by
    rw [← hlen]
    exact List.drop_left _ _
  rw [if_pos htake, hdrop]
  unfold matchUrlBody
  rw [splitAtCloseParen_append body tail hp]
  dsimp only
  rw [if_neg hb]

theorem matchUrl_http (body tail : List Char) (hb : body ≠ []) (hp : ')' ∉ body) :
    matchUrl ("http://".data ++ body ++ ')' :: tail) =
      some ("http://".data ++ body, tail) := by
  rcases List.exists_cons_of_ne_nil hb with ⟨b, bs, rfl⟩
  unfold matchUrl
  rw [List.append_assoc]
  have hne : ("http://".data ++ (b :: bs ++ ')' :: tail)).take 8 ≠ "https://".data := by
    intro hh
    rw [show ("http://".data : List Char) = ['h', 't', 't', 'p', ':', '/', '/'] from rfl] at hh
    rw [show ("https://".data : List Char) = ['h', 't', 't', 'p', 's', ':', '/', '/'] from rfl]
      at hh
    simp at hh
  rw [if_neg hne]
  have hlen : ("http://".data).length = 7 := by decide
  have htake : ("http://".data ++ (b :: bs ++ ')' :: tail)).take 7 = "http://".data := by
    rw [← hlen]
    exact List.take_left _ _
  have hdrop : ("http://".data ++ (b :: bs ++ ')' :: tail)).drop 7 = b :: bs ++ ')' :: tail := by
    rw [← hlen]
    exact List.drop_left _ _
  rw [if_pos htake, hdrop]
  unfold matchUrlBody
  rw [splitAtCloseParen_append (b :: bs) tail hp]
  dsimp only
  rw [if_neg (by simp)]

theorem findTextUrl_close (urlrest u rest : List Char)
    (h : matchUrl urlrest = some (u, rest)) :
    findTextUrl (']' :: '(' :: urlrest) = some ([], u, rest) := by
  unfold findTextUrl
  have he : endsHere ']' ('(' :: urlrest) = some (u, rest) := by
    unfold endsHere
    rw [if_pos rfl]
    exact h
  rw [he]

theorem findTextUrl_prefix (pre : List Char) (hb : ']' ∉ pre) (hn : '\n' ∉ pre)
    (l t u r : List Char) (h : findTextUrl l = some (t, u, r)) :
    findTextUrl (pre ++ l) = some (pre ++ t, u, r) := by
  induction pre with
  | nil => simpa using h
  | cons c cs ih =>
    have hc : ¬ c = ']' := by
      intro hh
      exact hb (by rw [hh]; exact List.mem_cons_self ']' cs)
    have hcn : ¬ c = '\n' := by
      intro hh
      exact hn (by rw [hh]; exact List.mem_cons_self '\n' cs)
    simp only [List.cons_append]
    unfold findTextUrl
    have he : endsHere c (cs ++ l) = none := by
      unfold endsHere
      rw [if_neg hc]
    rw [he, if_neg hcn,
      ih (fun hh => hb (List.mem_cons_of_mem c hh)) (fun hh => hn (List.mem_cons_of_mem c hh))]

theorem scanLinks_nil (fuel : Nat) : scanLinks fuel [] = [] := by
  cases fuel <;> rfl

theorem scanImages_nil (fuel : Nat) : scanImages fuel [] = [] := by
  cases fuel <;> rfl

theorem scanLinks_bang_bracket (fuel : Nat) (middle t u : List Char)
    (h : findTextUrl middle = some (t, u, [])) :
    scanLinks (fuel + 2) ('!' :: '[' :: middle) = [(String.mk t, String.mk u)] := by
  rw [show scanLinks (fuel + 2) ('!' :: '[' :: middle) =
      scanLinks (fuel + 1) ('[' :: middle) from rfl]
  rw [show scanLinks (fuel + 1) ('[' :: middle) =
      (match findTextUrl middle with
       | some (t2, u2, rest) => (String.mk t2, String.mk u2) :: scanLinks fuel rest
       | none => scanLinks fuel middle) from rfl]
  rw [h]
  show (String.mk t, String.mk u) :: scanLinks fuel [] = [(String.mk t, String.mk u)]
  rw [scanLinks_nil]

theorem scanImages_bang_bracket (fuel : Nat) (middle t u : List Char)
    (h : findTextUrl middle = some (t, u, [])) :
    scanImages (fuel + 2) ('!' :: '[' :: middle) = [String.mk u] := by
  rw [show scanImages (fuel + 2) ('!' :: '[' :: middle) =
      (match findTextUrl middle with
       | some (_, u2, rest) => String.mk u2 :: scanImages (fuel + 1) rest
       | none => scanImages (fuel + 1) ('[' :: middle)) from rfl]
  rw [h]
  show String.mk u :: scanImages (fuel + 1) [] = [String.mk u]
  rw [scanImages_nil]

/-- C10: an embedded image reference `![alt](url)` with an http/https
URL is matched by both extraction regexes of `run_http_audit`: the link
pattern (whose text group captures the alt text) and the image pattern
(reported with the `'[Image]'` sentinel).  Extraction therefore yields
two occurrences of the URL, and a wildcard-filtered report contains two
detail rows for the single probe of that URL. -/
theorem image_double_extraction (relf title alt url content : String) (secure : Bool)
    (body : List Char) (probe : String → ProbeResult)
    (ha1 : ']' ∉ alt.data) (ha2 : '\n' ∉ alt.data)
    (hb : body ≠ []) (hp : ')' ∉ body)
    (hurl : url = (if secure then "https://" else "http://") ++ String.mk body)
    (hcontent : content = "![" ++ alt ++ "](" ++ url ++ ")") :
    extract_occurrences relf title content =
      [(url, ⟨relf, title, alt⟩), (url, ⟨relf, title, "[Image]"⟩)] ∧
    (run_http_audit_files [(relf, title, content)] ["*"] probe).details =
      [mkRow (check_link url probe) ⟨relf, title, alt⟩,
       mkRow (check_link url probe) ⟨relf, title, "[Image]"⟩] ∧
    (run_http_audit_files [(relf, title, content)] ["*"] probe).total_links_checked = 1 := by
  have hurldata : url.data = (if secure then "https://" else "http://").data ++ body := by
    rw [hurl, String.data_append]
  have hmatch : matchUrl (url.data ++ ')' :: []) = some (url.data, []) := by
    cases secure
    · have h2 : url.data = "http://".data ++ body := by
        rw [hurldata]
        simp
      rw [h2]
      exact matchUrl_http body [] hb hp
    · have h2 : url.data = "https://".data ++ body := by
        rw [hurldata]
        simp
      rw [h2]
      exact matchUrl_https body [] hb hp
  have hmid : findTextUrl (alt.data ++ ']' :: '(' :: (url.data ++ ')' :: [])) =
      some (alt.data, url.data, []) := by
    have h0 := findTextUrl_close (url.data ++ ')' :: []) url.data [] hmatch
    have h1 := findTextUrl_prefix alt.data ha1 ha2 _ [] url.data [] h0
    simpa using h1
  have hcdata : content.data =
      '!' :: '[' :: (alt.data ++ ']' :: '(' :: (url.data ++ ')' :: [])) := by
    rw [hcontent]
    simp only [String.data_append]
    simp [List.append_assoc]
  have hlen2 : ('!' :: '[' :: (alt.data ++ ']' :: '(' :: (url.data ++ ')' :: []))).length =
      (alt.data ++ ']' :: '(' :: (url.data ++ ')' :: [])).length + 2 := by
    simp only [List.length_cons]
  have hlinks : findLinkMatches content.data = [(alt, url)] := by
    unfold findLinkMatches
    rw [hcdata, hlen2, scanLinks_bang_bracket _ _ _ _ hmid]
  have himgs : findImageMatches content.data = [url] := by
    unfold findImageMatches
    rw [hcdata, hlen2, scanImages_bang_bracket _ _ _ _ hmid]
  have hextract : extract_occurrences relf title content =
      [(url, ⟨relf, title, alt⟩), (url, ⟨relf, title, "[Image]"⟩)] := by
    unfold extract_occurrences
    rw [hlinks, himgs]
    rfl
  have hoccs : ([(relf, title, content)].flatMap
      (fun f => extract_occurrences f.1 f.2.1 f.2.2)) =
      [(url, (⟨relf, title, alt⟩ : Occurrence)), (url, ⟨relf, title, "[Image]"⟩)] := by
    simp only [List.flatMap_cons, List.flatMap_nil]
    rw [show extract_occurrences (relf, title, content).1 (relf, title, content).2.1
        (relf, title, content).2.2 = extract_occurrences relf title content from rfl]
    rw [hextract]
    simp
  have hurlne : url ≠ "" := by
    intro hh
    have h2 : url.data = [] := by rw [hh]
    rw [hurldata] at h2
    exact hb (List.append_eq_nil.mp h2).2
  have hbd1 : (buildLinkData [(url, (⟨relf, title, alt⟩ : Occurrence)),
      (url, ⟨relf, title, "[Image]"⟩)]).1 = [url, url] := by
    rw [buildLinkData_fst]
    rfl
  have hne2 : ¬ (buildLinkData [(url, (⟨relf, title, alt⟩ : Occurrence)),
      (url, ⟨relf, title, "[Image]"⟩)]).1 = [] := by
    rw [hbd1]
    simp
  have huniq : uniq [url, url] = [url] := by
    unfold uniq
    simp
  have hprobed : probedLinks [url, url] = [url] := by
    unfold probedLinks
    rw [huniq, List.filter_cons, if_pos (by simp [hurlne]), List.filter_nil]
  unfold run_http_audit_files
  rw [hoccs]
  unfold run_http_audit
  dsimp only
  rw [if_neg hne2]
  unfold http_from_results check_links_threaded
  rw [hbd1, hprobed]
  dsimp only
  refine ⟨hextract, ?_, rfl⟩
  unfold detailed_results
  simp only [List.map_cons, List.map_nil, List.flatMap_cons, List.flatMap_nil]
  rw [if_pos (by simp [rowPasses])]
  rw [check_link_link]
  rw [lookupOccs_buildLinkData]
  rw [List.filter_cons, if_pos (by simp), List.filter_cons, if_pos (by simp), List.filter_nil]
  simp

/-- Witness for C10 at the image reference `![logo](http://ex.com/i.png)`. -/
theorem image_double_extraction_witness :
    extract_occurrences "a.md" "T" "![logo](http://ex.com/i.png)" =
      [("http://ex.com/i.png", ⟨"a.md", "T", "logo"⟩),
       ("http://ex.com/i.png", ⟨"a.md", "T", "[Image]"⟩)] ∧
    (run_http_audit_files [("a.md", "T", "![logo](http://ex.com/i.png)")] ["*"]
        (fun _ => .response 200)).details =
      [mkRow (check_link "http://ex.com/i.png" (fun _ => .response 200))
         ⟨"a.md", "T", "logo"⟩,
       mkRow (check_link "http://ex.com/i.png" (fun _ => .response 200))
         ⟨"a.md", "T", "[Image]"⟩] ∧
    (run_http_audit_files [("a.md", "T", "![logo](http://ex.com/i.png)")] ["*"]
        (fun _ => .response 200)).total_links_checked = 1 :=
  image_double_extraction "a.md" "T" "logo" "http://ex.com/i.png"
    "![logo](http://ex.com/i.png)" false ("ex.com/i.png".data) (fun _ => .response 200)
    (by decide) (by decide) (by decide) (by decide) (by decide) (by decide)
